import Mathlib

/-!
Verification of the est-tokenizer matching engine.

This file gives a shallow embedding, in Lean 4, of the core of the
est-tokenizer repository (the modules `semantic_expander.py`,
`context_detector.py`, `scoring_system.py`, `decision_engine.py` and
`recursive_engine.py`), and proves or refutes the behavioural claims made
about it.  Python floats are modelled by `ℚ`, Python sets of strings by
`Finset String`, and Python dicts by insertion-ordered association lists.
Text is handled at `List Char` granularity so that every definition is
executable by kernel reduction.
-/

namespace EST

/-! ## String utilities (models of the Python primitives used by the code) -/

/-- Lower-case every character (models Python str.lower on the ASCII data used here). -/
def lowerStr (s : String) : String := String.mk (s.toList.map Char.toLower)

/-- Python str.strip() with no arguments: remove surrounding whitespace. -/
def trimWS (s : String) : String :=
  String.mk (((s.toList.dropWhile Char.isWhitespace).reverse.dropWhile Char.isWhitespace).reverse)

/-- Python str.strip(chars): remove the given characters from both ends. -/
def stripChars (cs : List Char) (s : String) : String :=
  String.mk (((s.toList.dropWhile (cs.contains ·)).reverse.dropWhile (cs.contains ·)).reverse)

/-- Split a character list at every separator character, keeping empty fields
    (models Python str.split(sep)).  The second argument accumulates the
    current field in reverse. -/
def splitFields (p : Char → Bool) : List Char → List Char → List (List Char)
  | [], cur => [cur.reverse]
  | c :: cs, cur => if p c then cur.reverse :: splitFields p cs [] else splitFields p cs (c :: cur)

/-- Python s.split(sep) for a one-character separator. -/
def splitOnChar (sep : Char) (s : String) : List String :=
  (splitFields (· = sep) s.toList []).map String.mk

/-- Python str.split() with no arguments: split on whitespace, dropping empty fields. -/
def splitWS (s : String) : List String :=
  ((splitFields Char.isWhitespace s.toList []).map String.mk).filter (· ≠ "")

/-- Python substring test `needle in hay`. -/
def containsSub (needle hay : String) : Bool :=
  hay.toList.tails.any (fun t => needle.toList.isPrefixOf t)

/-- Split at the last colon of a string (models Python s.rsplit with a colon
    separator and maxsplit one; only ever applied to strings containing a colon). -/
def rsplitColon (s : String) : String × String :=
  let r := s.toList.reverse
  (String.mk (((r.dropWhile (· ≠ ':')).drop 1).reverse), String.mk ((r.takeWhile (· ≠ ':')).reverse))

/-- Accumulate a decimal digit string into a natural number. -/
def digitsToNat : List Char → ℕ → Option ℕ
  | [], acc => some acc
  | c :: cs, acc => if c.isDigit then digitsToNat cs (acc * 10 + (c.toNat - 48)) else none

/-- Models Python float(str) on the plain decimal literals that occur in this
    repository's data: optional surrounding whitespace, optional sign, decimal
    digits with an optional fractional part.  Exponent forms, inf and nan do
    not occur in the data and are rejected. -/
def parsePyFloat (s : String) : Option ℚ :=
  let t := (trimWS s).toList
  let signed : ℚ × List Char :=
    match t with
    | '-' :: r => (-1, r)
    | '+' :: r => (1, r)
    | r => (1, r)
  match splitFields (· = '.') signed.2 [] with
  | [ip] =>
    match ip with
    | [] => none
    | _ => (digitsToNat ip 0).map (fun n => signed.1 * n)
  | [ip, fp] =>
    if ip = [] ∧ fp = [] then none
    else
      match digitsToNat ip 0, digitsToNat fp 0 with
      | some i, some f => some (signed.1 * ((i : ℚ) + (f : ℚ) / ((10 : ℚ) ^ fp.length)))
      | _, _ => none
  | _ => none

/-- A word character for the purposes of the regex word extraction
    (letters, digits, underscore; the data is ASCII). -/
def isWordChar (c : Char) : Bool := c.isAlphanum || c = '_'

/-- Maximal runs of word characters in a character list. -/
def wordRunsAux : List Char → List Char → List (List Char)
  | [], cur => if cur = [] then [] else [cur.reverse]
  | c :: cs, cur =>
    if isWordChar c then wordRunsAux cs (c :: cur)
    else if cur = [] then wordRunsAux cs [] else cur.reverse :: wordRunsAux cs []

/-- Tokens produced by the regex used throughout the code on the lower-cased
    text: maximal word-character runs made up solely of lowercase letters,
    of length at least two. -/
def reWords (text : String) : List String :=
  ((wordRunsAux (lowerStr text).toList []).filter
    (fun r => decide (2 ≤ r.length) && r.all (fun c => decide ('a' ≤ c) && decide (c ≤ 'z')))).map
    String.mk

/-! ## SemanticExpander (semantic_expander.py) -/

/-- The static synonym table `semantic_concepts`, transcribed from the source. -/
def semantic_concepts : List (String × List String) :=
  [("divide", ["split", "share", "distribute", "portion", "division", "allocation",
               "separate", "partition", "apportion", "allocate", "parcel", "section"]),
   ("share", ["divide", "distribute", "portion", "part", "allot", "allocate",
              "apportion", "parcel", "division", "split"]),
   ("distribute", ["divide", "share", "allocate", "apportion", "dispense",
                   "allot", "parcel", "portion", "divide up"]),
   ("portion", ["part", "share", "division", "segment", "piece", "fraction",
                "allocation", "allotment", "quota"]),
   ("part", ["portion", "share", "division", "segment", "piece", "fraction",
             "component", "section"]),
   ("property", ["possession", "asset", "ownership", "estate", "belonging",
                 "real estate", "land", "holding"]),
   ("inheritance", ["heritage", "legacy", "estate", "bequest", "patrimony",
                    "endowment", "succession"]),
   ("fraction", ["portion", "part", "division", "segment", "piece",
                 "numerator", "denominator"]),
   ("calculate", ["compute", "determine", "figure", "reckon", "work out",
                  "estimate", "assess"]),
   ("mathematical", ["numeric", "arithmetic", "computational", "quantitative",
                     "numerical"]),
   ("free", ["liberate", "release", "unbound", "unrestricted", "unfettered"]),
   ("obligation", ["debt", "duty", "responsibility", "commitment", "liability"]),
   ("debt", ["obligation", "liability", "indebtedness", "arrears"]),
   ("resources", ["assets", "materials", "supplies", "means", "funds", "wealth"]),
   ("assets", ["resources", "property", "possessions", "wealth", "holdings"]),
   ("fairly", ["equitably", "justly", "evenly", "equally", "impartially"]),
   ("cake", ["food", "dessert", "sweet", "pastry"]),
   ("portions", ["parts", "shares", "divisions", "segments", "pieces"]),
   ("how", ["method", "way", "manner", "process", "technique"]),
   ("to", []),
   ("a", []),
   ("into", ["toward", "towards", "to"]),
   ("llm", ["large language model", "language model", "ai model", "neural network",
            "machine learning", "artificial intelligence"]),
   ("transformer", ["transform", "convert", "change", "modify", "neural network",
                    "ai architecture", "model"]),
   ("attention", ["focus", "concentration", "awareness", "mechanism", "process",
                  "neural attention"]),
   ("mechanism", ["process", "method", "system", "function", "operation", "procedure"]),
   ("mechanisms", ["processes", "methods", "systems", "functions", "operations",
                   "procedures"]),
   ("natural", ["organic", "normal", "inherent", "intrinsic", "native"]),
   ("language", ["speech", "communication", "tongue", "dialect", "linguistic"]),
   ("processing", ["handling", "managing", "analyzing", "computing", "executing"]),
   ("use", ["utilize", "employ", "apply", "operate", "function"]),
   ("for", [])]

/-- The static `context_groups` table of the expander, transcribed from the source. -/
def context_groups : List (String × List String) :=
  [("legal", ["property", "inheritance", "debt", "obligation", "legal", "contract",
              "law", "right", "claim", "ownership", "estate", "will", "testament"]),
   ("mathematical", ["fraction", "calculation", "mathematical", "numerator",
                     "denominator", "divide", "multiply", "sum", "number", "count"]),
   ("economic", ["resources", "assets", "wealth", "property", "distribution",
                 "allocation", "share", "portion"]),
   ("food", ["cake", "food", "dessert", "meal", "eating"]),
   ("action", ["divide", "share", "distribute", "allocate", "split", "separate"]),
   ("technical", ["llm", "transformer", "attention", "mechanism", "processing",
                  "neural", "ai", "machine learning", "artificial intelligence"]),
   ("ai", ["artificial intelligence", "machine learning", "neural network",
           "language model", "transformer", "attention mechanism"])]

/-- Association-list lookup in a string-keyed table. -/
def lookupList (tbl : List (String × List String)) (k : String) : Option (List String) :=
  (tbl.find? (fun kv => kv.1 == k)).map (·.2)

/-- The reverse index entry for a word: every table key whose concept list
    contains the word, in table order (models the lazily built _reverse_index). -/
def reverse_index_get (w : String) : List String :=
  (semantic_concepts.filter (fun kv => kv.2.contains w)).map (·.1)

/-- The concept list of a key of the synonym table, as a finite set. -/
def directConcepts (k : String) : Finset String :=
  match lookupList semantic_concepts k with
  | some l => l.toFinset
  | none => ∅

/-- The pure value computed by expand_word for an already lower-cased,
    trimmed key: direct synonym hits, the word itself, and for every reverse
    index hit the key together with its concept list. -/
def expandKey (k : String) : Finset String :=
  (reverse_index_get k).foldl
    (fun acc key => acc ∪ insert key (directConcepts key))
    (insert k (directConcepts k))

/-- Pure expand_word: lower-case and trim the word, then expand. -/
def expandWordP (w : String) : Finset String := expandKey (trimWS (lowerStr w))

/-- The memoization cache of the expander (the only mutable state of the core). -/
structure ExpCache where
  cache : List (String × Finset String)
deriving DecidableEq

/-- Stateful expand_word: consult the cache keyed by the lower-cased trimmed
    word, computing and storing the expansion on a miss. -/
def expand_word (st : ExpCache) (w : String) : Finset String × ExpCache :=
  let key := trimWS (lowerStr w)
  match st.cache.find? (fun kv => kv.1 == key) with
  | some kv => (kv.2, st)
  | none => (expandKey key, ⟨st.cache ++ [(key, expandKey key)]⟩)

/-- Stop words removed by expand_text (distinct from the stop-word list of
    process_text), transcribed from the source. -/
def expandTextStop : List String :=
  ["the", "a", "an", "and", "or", "but", "in", "on", "at", "to", "for",
   "of", "with", "by", "from", "as", "is", "are", "was", "were"]

/-- expand_text: extract the regex word tokens, drop stop words, and union the
    expansion of every remaining word. -/
def expand_text (text : String) : Finset String :=
  ((reWords text).filter (fun w => !expandTextStop.contains w)).foldl
    (fun acc w => acc ∪ expandWordP w) ∅

/-- get_context_concepts: for every context group, the words of the group that
    occur as substrings of the lower-cased text, together with their
    expansions; groups with no hit are omitted. -/
def get_context_concepts (text : String) : List (String × Finset String) :=
  let tl := lowerStr text
  context_groups.filterMap (fun g =>
    let hits := g.2.filter (fun w => containsSub w tl)
    let ms := hits.foldl (fun acc w => insert w acc ∪ expandWordP w) ∅
    if ms = ∅ then none else some (g.1, ms))

/-- Result of expand_with_context. -/
structure Expanded where
  concepts : Finset String
  contexts : List (String × Finset String)
  primary_context : Option String
deriving DecidableEq

/-- expand_with_context: all concepts, the context groups, and as primary
    context the first group of maximal size (strictly-greater updates model
    the Python loop). -/
def expand_with_context (text : String) : Expanded :=
  let ctxs := get_context_concepts text
  let primary := (ctxs.foldl
    (fun (best : Option String × ℕ) kv =>
      if kv.2.card > best.2 then (some kv.1, kv.2.card) else best)
    (none, 0)).1
  ⟨expand_text text, ctxs, primary⟩

/-! ## ContextDetector (context_detector.py) -/

/-- The static context_patterns table: context name, keyword list, weight. -/
def context_patterns : List (String × List String × ℚ) :=
  [("legal", (["property", "inheritance", "debt", "obligation", "legal", "contract",
               "law", "right", "claim", "ownership", "estate", "will", "testament",
               "heir", "co-heir", "ancestral"], 1)),
   ("mathematical", (["fraction", "calculation", "mathematical", "numerator", "denominator",
                      "divide", "multiply", "sum", "number", "count", "calculate", "compute"], 1)),
   ("economic", (["resources", "assets", "wealth", "property", "distribution",
                  "allocation", "share", "portion", "fairly", "equitably"], 1)),
   ("food", (["cake", "food", "dessert", "meal", "eating", "cooking"], 1/2)),
   ("action", (["divide", "share", "distribute", "allocate", "split", "separate"], 8/10)),
   ("social", (["people", "family", "relative", "community", "society"], 9/10)),
   ("technical", (["llm", "transformer", "attention", "mechanism", "processing",
                   "neural", "ai", "machine learning", "artificial intelligence"], 1)),
   ("ai", (["artificial intelligence", "machine learning", "neural network",
            "language model", "transformer", "attention mechanism"], 1))]

/-- Result of detect_context: per matched context its score and matched
    keywords, plus the primary context (first strict maximum, as computed by
    the Python max over the insertion-ordered dict). -/
structure DetectedContext where
  primary_context : Option String
  context_scores : List (String × ℚ)
  context_keywords : List (String × List String)
deriving DecidableEq

/-- detect_context: keyword substring hits per context; contexts without hits
    are omitted; score is hit fraction times weight. -/
def detect_context (text : String) : DetectedContext :=
  let tl := lowerStr text
  let entries : List (String × ℚ × List String) := context_patterns.filterMap (fun cp =>
    let matched := cp.2.1.filter (fun k => containsSub k tl)
    if matched.isEmpty then none
    else some (cp.1, ((matched.length : ℚ) / (cp.2.1.length : ℚ)) * cp.2.2, matched))
  let primary := (entries.foldl
    (fun (best : Option (String × ℚ)) e =>
      match best with
      | none => some (e.1, e.2.1)
      | some b => if e.2.1 > b.2 then some (e.1, e.2.1) else best)
    none).map (·.1)
  ⟨primary, entries.map (fun e => (e.1, e.2.1)), entries.map (fun e => (e.1, e.2.2))⟩

/-! ## Dictionary entries (the rows produced by load_dataset) -/

/-- A dictionary entry as built by RecursiveEngine.load_dataset.  Every field
    is a (possibly empty) string; load_dataset never stores a
    semantic_neighbors column, so that field is blank for loaded data, but the
    accessor pattern word_data.get(key, default-blank) is modelled faithfully. -/
structure Entry where
  english : String
  semantic_frame : String
  contextual_triggers : String
  conceptual_anchors : String
  ambiguity_resolvers : String
  usage_frequency_index : String
  semantic_neighbors : String
  devnari : String
deriving DecidableEq

/-- The engine's dictionary: token to entry, in insertion order. -/
abbrev WordData : Type := List (String × Entry)

/-- Python word_data.get(key): the first binding of the key, if any. -/
def wdGet (wd : WordData) (k : String) : Option Entry :=
  (List.find? (fun kv => kv.1 == k) wd).map (·.2)

/-- Python word_data.get(key, empty-dict).get(field, blank): reading a field
    of a possibly absent entry yields the empty string. -/
def fieldOf (e : Option Entry) (f : Entry → String) : String :=
  match e with
  | none => ""
  | some en => f en

/-- get_context_priority: weight of the primary context inside the entry's
    usage_frequency_index if present and parsable, else 0.7 on any overlap
    between the primary context's matched keywords and the entry's
    contextual_triggers, else 0.3; 0.5 when no primary context was detected. -/
def get_context_priority (text : String) (e : Option Entry) : ℚ :=
  let detected := detect_context text
  match detected.primary_context with
  | none => 1/2
  | some p =>
    let fi := trimWS (fieldOf e Entry.usage_frequency_index)
    let fromFreq : Option ℚ :=
      if fi ≠ "" ∧ containsSub p (lowerStr fi) then
        (splitOnChar '|' fi).findSome? (fun part =>
          if containsSub ":" part then
            let cw := rsplitColon part
            if lowerStr (trimWS cw.1) == p then parsePyFloat cw.2 else none
          else none)
      else none
    match fromFreq with
    | some w => w
    | none =>
      let triggers := trimWS (fieldOf e Entry.contextual_triggers)
      if triggers ≠ "" then
        let ck := ((detected.context_keywords.find? (fun kv => kv.1 == p)).map (·.2)).getD []
        let tw := (splitOnChar '|' triggers).map (fun t => lowerStr (trimWS t))
        if 0 < (ck.toFinset ∩ tw.toFinset).card then 7/10 else 3/10
      else 3/10

/-- Stable descending insertion for candidate lists (models the stable
    Python list.sort with reverse order on the score component). -/
def insertDescBy (x : String × ℚ) : List (String × ℚ) → List (String × ℚ)
  | [] => [x]
  | y :: ys => if x.2 > y.2 then x :: y :: ys else y :: insertDescBy x ys

/-- Stable sort of candidates by descending score. -/
def sortDesc (l : List (String × ℚ)) : List (String × ℚ) :=
  l.foldl (fun acc x => insertDescBy x acc) []

/-- context_aware_filter: if a primary context is detected, rescale every
    candidate by 0.7 plus 0.3 times its context priority and re-sort
    descending; otherwise return the candidates unchanged. -/
def context_aware_filter (text : String) (cands : List (String × ℚ)) (wd : WordData) :
    List (String × ℚ) :=
  match (detect_context text).primary_context with
  | none => cands
  | some _ =>
    sortDesc (cands.map (fun c =>
      (c.1, c.2 * (7/10 + get_context_priority text (wdGet wd c.1) * (3/10)))))

/-! ## ScoringSystem (scoring_system.py) -/

/-- extract_semantic_concepts: the concept set of expand_with_context. -/
def extract_semantic_concepts (text : String) : Finset String :=
  (expand_with_context text).concepts

/-- Bounded overlap ratio used by every concept comparator:
    min of the intersection size over the target size and one, zero on an
    empty target. -/
def overlapRatio (ec target : Finset String) : ℚ :=
  if 0 < target.card then min ((((ec ∩ target).card : ℚ)) / (target.card : ℚ)) 1 else 0

/-- compare_frames: concept overlap of the text with the expansion of every
    pipe section of the entry's semantic_frame (weighted 0.40 in the total). -/
def compare_frames (wd : WordData) (chunk tok : String) : ℚ :=
  match wdGet wd tok with
  | none => 0
  | some e =>
    let sf := trimWS e.semantic_frame
    if sf = "" then 0
    else
      let ec := extract_semantic_concepts chunk
      let fc := (splitOnChar '|' sf).foldl
        (fun acc sec => let s2 := trimWS sec; if s2 = "" then acc else acc ∪ expand_text s2) ∅
      if fc = ∅ then 0 else overlapRatio ec fc

/-- compare_triggers: concept overlap with the expand_word expansion of every
    pipe-separated contextual trigger (weighted 0.25). -/
def compare_triggers (wd : WordData) (chunk tok : String) : ℚ :=
  match wdGet wd tok with
  | none => 0
  | some e =>
    let trig := trimWS e.contextual_triggers
    if trig = "" then 0
    else
      let ec := extract_semantic_concepts chunk
      let tc := (splitOnChar '|' trig).foldl
        (fun acc t => let t2 := lowerStr (trimWS t)
                      if t2 = "" then acc else acc ∪ expandWordP t2) ∅
      if tc = ∅ then 0 else overlapRatio ec tc

/-- compare_anchors: concept overlap with the expand_word expansion of every
    pipe-separated conceptual anchor (weighted 0.20). -/
def compare_anchors (wd : WordData) (chunk tok : String) : ℚ :=
  match wdGet wd tok with
  | none => 0
  | some e =>
    let anch := trimWS e.conceptual_anchors
    if anch = "" then 0
    else
      let ec := extract_semantic_concepts chunk
      let ac := (splitOnChar '|' anch).foldl
        (fun acc t => let t2 := lowerStr (trimWS t)
                      if t2 = "" then acc else acc ∪ expandWordP t2) ∅
      if ac = ∅ then 0 else overlapRatio ec ac

/-- Contribution of a single usage_frequency_index segment: a parsed
    context:weight pair contributes weight times 1.5 on an exact primary
    context match, the bare weight when the context name is among the text's
    concepts, and nothing otherwise; unparsable segments contribute nothing. -/
def freqContribution (primary : String) (concepts : Finset String) (part : String) : ℚ :=
  let p2 := trimWS part
  if containsSub ":" p2 then
    let cw := rsplitColon p2
    match parsePyFloat cw.2 with
    | none => 0
    | some w =>
      let cl := lowerStr (trimWS cw.1)
      if cl = primary then w * (3/2)
      else if cl ∈ concepts then w
      else 0
  else 0

/-- get_frequency_score: the clamped sum of the segment contributions of the
    entry's usage_frequency_index against the detected primary context
    (weighted 0.15). -/
def get_frequency_score (wd : WordData) (chunk tok : String) : ℚ :=
  match wdGet wd tok with
  | none => 0
  | some e =>
    let fi := trimWS e.usage_frequency_index
    if fi = "" then 0
    else
      match (detect_context chunk).primary_context with
      | none => 0
      | some primary =>
        let ec := extract_semantic_concepts chunk
        min (((splitOnChar '|' fi).map (freqContribution primary ec)).sum) 1

/-- compare_english_definition: concept overlap with the expansion of the
    entry's plain-language definition (bonus weighted 0.20). -/
def compare_english_definition (wd : WordData) (chunk tok : String) : ℚ :=
  match wdGet wd tok with
  | none => 0
  | some e =>
    let en := trimWS e.english
    if en = "" then 0
    else
      let cc := extract_semantic_concepts chunk
      let dc := extract_semantic_concepts en
      if dc = ∅ then 0 else overlapRatio cc dc

/-- prioritize_by_semantic_frame: the best per-section overlap ratio of the
    entry's semantic_frame (tie-break boost source). -/
def prioritize_by_semantic_frame (wd : WordData) (chunk tok : String) : ℚ :=
  let sf := trimWS (fieldOf (wdGet wd tok) Entry.semantic_frame)
  if sf = "" then 0
  else
    let ec := extract_semantic_concepts chunk
    let roleScores := (splitOnChar '|' sf).filterMap (fun sec =>
      let s2 := trimWS sec
      if s2 = "" then none
      else
        let sc := expand_text s2
        if 0 < sc.card then some (((ec ∩ sc).card : ℚ) / (sc.card : ℚ)) else none)
    match roleScores with
    | [] => 0
    | r :: rest => rest.foldl max r

/-- use_ambiguity_resolvers: concept overlap with the expand_text expansion of
    every pipe-separated ambiguity resolver (tie-break boost source). -/
def use_ambiguity_resolvers (wd : WordData) (chunk tok : String) : ℚ :=
  let res := trimWS (fieldOf (wdGet wd tok) Entry.ambiguity_resolvers)
  if res = "" then 0
  else
    let ec := extract_semantic_concepts chunk
    let rc := (splitOnChar '|' res).foldl
      (fun acc r => let r2 := lowerStr (trimWS r)
                    if r2 = "" then acc else acc ∪ expand_text r2) ∅
    if rc = ∅ then 0 else overlapRatio ec rc

/-- apply_frequency_boost: the entry's frequency weight for the detected
    primary context (or, failing a positive exact match, the largest other
    weight), clamped to one. -/
def apply_frequency_boost (wd : WordData) (chunk tok : String) : ℚ :=
  let fi := trimWS (fieldOf (wdGet wd tok) Entry.usage_frequency_index)
  if fi = "" then 0
  else
    match (detect_context chunk).primary_context with
    | none => 0
    | some primary =>
      let mw := (splitOnChar '|' fi).foldl
        (fun (s : ℚ × ℚ) part =>
          let p2 := trimWS part
          if containsSub ":" p2 then
            let cw := rsplitColon p2
            match parsePyFloat cw.2 with
            | none => s
            | some w =>
              let cl := lowerStr (trimWS cw.1)
              if cl = primary then (s.1, w)
              else if w > s.1 then (w, s.2) else s
          else s)
        (0, 0)
      min (if mw.2 > 0 then mw.2 else mw.1) 1

/-- apply_neighbor_priority: one for a candidate that is itself expected, 0.8
    for a candidate listed among an expected token's semantic neighbors,
    otherwise zero. -/
def apply_neighbor_priority (wd : WordData) (expT : List String) (tok : String) : ℚ :=
  if expT.isEmpty then 0
  else if expT.contains tok then 1
  else
    let hit := expT.any (fun et =>
      let nb := trimWS (fieldOf (wdGet wd et) Entry.semantic_neighbors)
      if nb ≠ "" then
        (((splitOnChar '|' nb).map trimWS).filter (· ≠ "")).contains tok
      else false)
    if hit then 8/10 else 0

/-- align_with_expected_context: trigger-concept overlap, plus 0.2 (clamped)
    when the expected context occurs inside the trigger text. -/
def align_with_expected_context (wd : WordData) (chunk tok expC : String) : ℚ :=
  let triggers := trimWS (fieldOf (wdGet wd tok) Entry.contextual_triggers)
  if triggers = "" then 0
  else
    let ec := extract_semantic_concepts chunk
    let tc := (splitOnChar '|' triggers).foldl
      (fun acc t => let t2 := lowerStr (trimWS t)
                    if t2 = "" then acc else acc ∪ expand_text t2) ∅
    if tc = ∅ then 0
    else
      let al := overlapRatio ec tc
      if expC ≠ "" ∧ containsSub (lowerStr expC) (lowerStr triggers) then min (al + 2/10) 1
      else al

/-- match_frequency_context: the entry's frequency weight for the expected
    context (or, failing a positive exact match, the largest other weight),
    clamped to one. -/
def match_frequency_context (wd : WordData) (expC tok : String) : ℚ :=
  if expC = "" then 0
  else
    let fi := trimWS (fieldOf (wdGet wd tok) Entry.usage_frequency_index)
    if fi = "" then 0
    else
      let ecl := lowerStr expC
      let mw := (splitOnChar '|' fi).foldl
        (fun (s : ℚ × ℚ) part =>
          let p2 := trimWS part
          if containsSub ":" p2 then
            let cw := rsplitColon p2
            match parsePyFloat cw.2 with
            | none => s
            | some w =>
              let cl := lowerStr (trimWS cw.1)
              if cl = ecl then (s.1, w)
              else if w > s.1 then (w, s.2) else s
          else s)
        (0, 0)
      min (if mw.2 > 0 then mw.2 else mw.1) 1

/-- validate_with_resolvers: resolver-concept overlap (computed by
    calculate_score for its breakdown report; it feeds no boost). -/
def validate_with_resolvers (wd : WordData) (chunk tok : String) : ℚ :=
  let res := trimWS (fieldOf (wdGet wd tok) Entry.ambiguity_resolvers)
  if res = "" then 0
  else
    let ec := extract_semantic_concepts chunk
    let rc := (splitOnChar '|' res).foldl
      (fun acc r => let r2 := lowerStr (trimWS r)
                    if r2 = "" then acc else acc ∪ expand_text r2) ∅
    if rc = ∅ then 0 else overlapRatio ec rc

/-- calculate_score: the weighted 0.40/0.25/0.20/0.15 core plus the 0.20
    english-definition bonus, plus gated tie-break boosts capped at 0.20,
    clamped to one.  The optional guidance parameters are modelled as a
    possibly-empty token list and a possibly-empty context string (Python
    treats None and empty alike in every guard).  The returned breakdown map
    influences nothing downstream and is omitted. -/
def calculate_score (wd : WordData) (chunk tok : String) (expT : List String) (expC : String) : ℚ :=
  let semantic_frame_match := compare_frames wd chunk tok
  let triggers_match := compare_triggers wd chunk tok
  let anchors_match := compare_anchors wd chunk tok
  let frequency_weight := get_frequency_score wd chunk tok
  let english_def_match := compare_english_definition wd chunk tok
  let frame_prioritization := prioritize_by_semantic_frame wd chunk tok
  let ambiguity_resolver_match := use_ambiguity_resolvers wd chunk tok
  let frequency_boost := apply_frequency_boost wd chunk tok
  let context_priority := get_context_priority chunk (wdGet wd tok)
  let neighbor_priority := if !expT.isEmpty then apply_neighbor_priority wd expT tok else 0
  let context_alignment := if expC ≠ "" then align_with_expected_context wd chunk tok expC else 0
  let frequency_context_match := if expC ≠ "" then match_frequency_context wd expC tok else 0
  let base_score :=
    semantic_frame_match * (4/10) + triggers_match * (25/100) + anchors_match * (2/10)
      + frequency_weight * (15/100) + english_def_match * (2/10)
  let precision_boosts :=
    (if frame_prioritization > 7/10 then frame_prioritization * (5/100) else 0)
      + (if ambiguity_resolver_match > 6/10 then ambiguity_resolver_match * (5/100) else 0)
      + (if frequency_boost > 5/10 then frequency_boost * (3/100) else 0)
      + (if context_priority > 5/10 then context_priority * (2/100) else 0)
  let expected_token_boosts :=
    if !expT.isEmpty ∨ expC ≠ "" then
      (if neighbor_priority ≥ 1 then 1/10
       else if neighbor_priority ≥ 8/10 then 5/100 else 0)
        + (if context_alignment > 7/10 then context_alignment * (5/100) else 0)
        + (if frequency_context_match > 5/10 then frequency_context_match * (3/100) else 0)
    else 0
  min (base_score + min (precision_boosts + expected_token_boosts) (2/10)) 1

/-- Final processing shared by every return path of find_best_matches:
    sort descending, context-filter, truncate to top_n. -/
def fbmFinish (wd : WordData) (chunk : String) (topN : ℕ) (ms : List (String × ℚ)) :
    List (String × ℚ) :=
  (context_aware_filter chunk (sortDesc ms) wd).take topN

/-- Outcome of the find_best_matches scan loop: an early return with a final
    result, a break falling through to the shared finish, or completion of the
    whole key list.  The completion case records whether the mid-scan in-place
    sort (part of the third early-exit heuristic) ever ran without returning. -/
inductive ScanOutcome where
  | early (res : List (String × ℚ))
  | broke (ms : List (String × ℚ))
  | full (ms : List (String × ℚ)) (sortedMid : Bool)
deriving DecidableEq

/-- The scan loop of find_best_matches over the dictionary keys, carrying the
    iteration counter, the high-score counter, the best score seen and the
    accumulated matches, with the four early-exit heuristics transcribed from
    the source (thresholds 0.25 / 500 / 100 / top_n multiples). -/
def fbmLoop (wd : WordData) (chunk : String) (topN : ℕ) (expT : List String) (expC : String) :
    List String → ℕ → ℕ → ℚ → List (String × ℚ) → Bool → ScanOutcome
  | [], _, _, _, ms, sm => .full ms sm
  | w :: rest, it0, hsc, best, ms, sm =>
    if 100 < it0 + 1 ∧ best < 1/10 ∧ ms.isEmpty then .broke ms
    else if 500 < it0 + 1 then .broke ms
    else if ms.any (fun m => m.1 == w) then
      fbmLoop wd chunk topN expT expC rest (it0 + 1) hsc best ms sm
    else if 0 < calculate_score wd chunk w expT expC then
      if 25/100 ≤ calculate_score wd chunk w expT expC
          ∧ topN ≤ (if 25/100 ≤ calculate_score wd chunk w expT expC then hsc + 1 else hsc)
          ∧ topN ≤ (ms ++ [(w, calculate_score wd chunk w expT expC)]).length then
        .early (fbmFinish wd chunk topN (ms ++ [(w, calculate_score wd chunk w expT expC)]))
      else if topN * 3 ≤ (ms ++ [(w, calculate_score wd chunk w expT expC)]).length then
        .early (fbmFinish wd chunk topN (ms ++ [(w, calculate_score wd chunk w expT expC)]))
      else if topN ≤ (ms ++ [(w, calculate_score wd chunk w expT expC)]).length then
        if 15/100 ≤ (((sortDesc (ms ++ [(w, calculate_score wd chunk w expT expC)])).head?.map
            (·.2)).getD 0) then
          .early ((context_aware_filter chunk
            (sortDesc (ms ++ [(w, calculate_score wd chunk w expT expC)])) wd).take topN)
        else if 3 ≤ (sortDesc (ms ++ [(w, calculate_score wd chunk w expT expC)])).length
            ∧ 4/10 ≤ max best (calculate_score wd chunk w expT expC) then
          .early (fbmFinish wd chunk topN
            (sortDesc (ms ++ [(w, calculate_score wd chunk w expT expC)])))
        else
          fbmLoop wd chunk topN expT expC rest (it0 + 1)
            (if 25/100 ≤ calculate_score wd chunk w expT expC then hsc + 1 else hsc)
            (max best (calculate_score wd chunk w expT expC))
            (sortDesc (ms ++ [(w, calculate_score wd chunk w expT expC)])) true
      else if 3 ≤ (ms ++ [(w, calculate_score wd chunk w expT expC)]).length
          ∧ 4/10 ≤ max best (calculate_score wd chunk w expT expC) then
        .early (fbmFinish wd chunk topN (ms ++ [(w, calculate_score wd chunk w expT expC)]))
      else
        fbmLoop wd chunk topN expT expC rest (it0 + 1)
          (if 25/100 ≤ calculate_score wd chunk w expT expC then hsc + 1 else hsc)
          (max best (calculate_score wd chunk w expT expC))
          (ms ++ [(w, calculate_score wd chunk w expT expC)]) sm
    else fbmLoop wd chunk topN expT expC rest (it0 + 1) hsc best ms sm

/-- The expected-token pre-pass of find_best_matches: expected tokens present
    in the dictionary are scored first with a flat ten percent multiplier. -/
def fbmPre (wd : WordData) (chunk : String) (expT : List String) (expC : String) :
    List (String × ℚ) :=
  if expT.isEmpty then []
  else
    expT.foldl (fun ms t =>
      if (wdGet wd t).isSome then
        let score := calculate_score wd chunk t expT expC
        if 0 < score then ms ++ [(t, score * (11/10))] else ms
      else ms) []

/-- find_best_matches: pre-pass, guarded scan with early exits, shared finish. -/
def find_best_matches (wd : WordData) (chunk : String) (topN : ℕ) (expT : List String)
    (expC : String) : List (String × ℚ) :=
  match fbmLoop wd chunk topN expT expC (wd.map (·.1)) 0 0 0 (fbmPre wd chunk expT expC) false with
  | .early res => res
  | .broke ms => fbmFinish wd chunk topN ms
  | .full ms _ => fbmFinish wd chunk topN ms

/-- The exhaustive scan: identical accumulation with every early-exit
    heuristic removed. -/
def fbmLoopEx (wd : WordData) (chunk : String) (expT : List String) (expC : String) :
    List String → List (String × ℚ) → List (String × ℚ)
  | [], ms => ms
  | w :: rest, ms =>
    if ms.any (fun m => m.1 == w) then fbmLoopEx wd chunk expT expC rest ms
    else if 0 < calculate_score wd chunk w expT expC then
      fbmLoopEx wd chunk expT expC rest (ms ++ [(w, calculate_score wd chunk w expT expC)])
    else fbmLoopEx wd chunk expT expC rest ms

/-- Modelled from the spec's words for the refinement claim: score every
    dictionary entry exhaustively (same pre-pass, no early exit), then sort
    descending, context-filter and truncate to top_n. -/
def find_best_matches_exhaustive (wd : WordData) (chunk : String) (topN : ℕ)
    (expT : List String) (expC : String) : List (String × ℚ) :=
  fbmFinish wd chunk topN (fbmLoopEx wd chunk expT expC (wd.map (·.1)) (fbmPre wd chunk expT expC))

/-! ## DecisionEngine (decision_engine.py) -/

/-- The three decision states.  The reason strings attached by the source
    influence nothing and are omitted. -/
inductive Decision where
  | ACCEPT
  | CONTINUE
  | REJECT
deriving DecidableEq

/-- context_maintained: relative absolute change at most 0.40; vacuously true
    without a previous score; a non-positive previous score counts as full
    context loss. -/
def context_maintained (current : ℚ) (previous : Option ℚ) : Bool :=
  match previous with
  | none => true
  | some p => decide ((if 0 < p then |current - p| / p else 1) ≤ 4/10)

/-- context_degradation_detected: relative drop above 0.40; false without a
    previous score; a non-positive previous score counts as no degradation. -/
def context_degradation_detected (current : ℚ) (previous : Option ℚ) : Bool :=
  match previous with
  | none => false
  | some p => decide (4/10 < (if 0 < p then (p - current) / p else 0))

/-- make_decision: degradation check first, then the 0.80 / 0.60 score bands
    with iteration-dependent handling (max_iterations five, early-iteration
    grace below three). -/
def make_decision (score : ℚ) (previous : Option ℚ) (iteration : ℕ) : Decision :=
  if context_degradation_detected score previous then .REJECT
  else if 8/10 ≤ score then
    if context_maintained score previous then .ACCEPT
    else if iteration < 5 then .CONTINUE else .ACCEPT
  else if 6/10 ≤ score then
    if iteration < 5 then .CONTINUE
    else if context_maintained score previous then .ACCEPT else .REJECT
  else
    if context_maintained score previous then
      if iteration < 3 then .CONTINUE else .REJECT
    else .REJECT

/-! ## RecursiveEngine (recursive_engine.py) -/

/-- The per-iteration result record of the cascade (breakdown omitted, as in
    calculate_score). -/
structure IterRes where
  iteration : ℕ
  chunk : String
  sanskrit : Option String
  score : ℚ
  decision : Decision
deriving DecidableEq

/-- iteration5_final_resolution: a single find_best_matches call with top_n
    five; the best match is returned with a decision when its score reaches
    0.30, otherwise no token and REJECT. -/
def iteration5_final_resolution (wd : WordData) (expT : List String) (expC : String)
    (text : String) (previous : Option ℚ) : IterRes :=
  match find_best_matches wd text 5 expT expC with
  | [] => ⟨5, text, none, 0, .REJECT⟩
  | m :: _ =>
    if 3/10 ≤ m.2 then ⟨5, text, some m.1, m.2, make_decision m.2 previous 5⟩
    else ⟨5, text, none, 0, .REJECT⟩

/-- The transcript of a cascade run: for every iteration that ran, the
    previous score handed to it together with its result, in order. -/
abbrev PCTrace := List (Option ℚ × IterRes)

/-- Python max over the results with the score key: the first result of
    maximal score (strictly greater results replace the current best). -/
def pcBest : IterRes → List IterRes → IterRes
  | b, [] => b
  | b, r :: rest => pcBest (if r.score > b.score then r else b) rest

/-- process_chunk, parameterised over the five iteration functions (each maps
    the previous score it is handed to its result; the engine instantiates
    them with iteration1_full_sentence through iteration5_final_resolution on
    a fixed chunk).  Returns the result the source returns together with the
    full transcript.  The guards of the source evaluate per branch as noted in
    the comments: iteration k runs only while the previous iterations
    continued, except that a rejected iteration 2 still lets iteration 4 run
    (its guard accepts a missing iteration 3 when iteration 1 continued), and
    iteration 5 always runs when no iteration accepted. -/
def process_chunk (i1 i2 i3 i4 i5 : Option ℚ → IterRes) : IterRes × PCTrace :=
  let r1 := i1 none
  if r1.decision = .ACCEPT then (r1, [(none, r1)])
  else
    let p1 := r1.score
    if r1.decision = .CONTINUE then
      let r2 := i2 (some p1)
      if r2.decision = .ACCEPT then (r2, [(none, r1), (some p1, r2)])
      else
        let p2 := if r2.score > p1 then r2.score else p1
        if r2.decision = .CONTINUE then
          let r3 := i3 (some p2)
          if r3.decision = .ACCEPT then (r3, [(none, r1), (some p1, r2), (some p2, r3)])
          else
            let p3 := if r3.score > p2 then r3.score else p2
            if r3.decision = .CONTINUE then
              let r4 := i4 (some p3)
              if r4.decision = .ACCEPT then
                (r4, [(none, r1), (some p1, r2), (some p2, r3), (some p3, r4)])
              else
                let p4 := if r4.score > p3 then r4.score else p3
                let r5 := i5 (some p4)
                (pcBest r1 [r2, r3, r4, r5],
                 [(none, r1), (some p1, r2), (some p2, r3), (some p3, r4), (some p4, r5)])
            else
              let r5 := i5 (some p3)
              (pcBest r1 [r2, r3, r5],
               [(none, r1), (some p1, r2), (some p2, r3), (some p3, r5)])
        else
          let r4 := i4 (some p2)
          if r4.decision = .ACCEPT then (r4, [(none, r1), (some p1, r2), (some p2, r4)])
          else
            let p3 := if r4.score > p2 then r4.score else p2
            let r5 := i5 (some p3)
            (pcBest r1 [r2, r4, r5],
             [(none, r1), (some p1, r2), (some p2, r4), (some p3, r5)])
    else
      let r5 := i5 (some p1)
      (pcBest r1 [r5], [(none, r1), (some p1, r5)])

/-! ## RecursiveEngine.process_text (segmentation)

The segmentation walks the whitespace-split word array with a processed-flag
array, first consuming multi-word semantic phrases (only attempted for inputs
of more than ten words), then greedily matching windows of up to six words,
then single words, and finally sweeping any word still unprocessed.  The model
is parameterised by the chunk oracle (the sanskrit/score projection of
process_chunk, arbitrary here, so the theorems cover the engine's actual
cascade) and by the semantic phrase list produced by the chunker.  The
processed-flag array is modelled by the set of indices flagged true.  Instead
of only accumulating the output strings, the model records one event per
emitted output part together with the set of input-word indices that part
consumed, which is exactly the accounting the full-coverage claim is about. -/

/-- The chunk oracle: for a chunk string, the sanskrit output (if any) and the
    score of the process_chunk result. -/
abbrev Chunker := String → Option String × ℚ

/-- The stop-word list of process_text, transcribed from the source. -/
def pt_stop_words : List String :=
  ["the", "a", "an", "and", "or", "but", "in", "on", "at", "to", "for",
   "of", "with", "by", "from", "as", "is", "are", "was", "were", "do", "does", "did",
   "we", "need", "how", "into", "have", "has", "had", "will", "would", "could", "should"]

/-- The punctuation set stripped by clean_word. -/
def punctChars : List Char :=
  ['.', ',', '!', '?', ';', ':', '(', ')', '[', ']', '\x7b', '\x7d']

/-- clean_word: lower-case, then strip surrounding punctuation. -/
def clean_word (w : String) : String := stripChars punctChars (lowerStr w)

/-- is_stop_word: membership of the cleaned word in the stop-word list. -/
def is_stop_word (w : String) : Bool := pt_stop_words.contains (clean_word w)

/-- One emitted output part and the set of input-word indices it consumed;
    token events carry a sanskrit output, verbatim events an original word. -/
structure Ev where
  part : String
  covered : Finset ℕ
  isTok : Bool
deriving DecidableEq

/-- The mutable state of a process_text call: the set of indices flagged
    processed and the events emitted so far, in order. -/
structure PTState where
  processed : Finset ℕ
  events : List Ev
deriving DecidableEq

/-- The first unprocessed index whose cleaned word equals the cleaned phrase
    word (the inner search of the semantic-phrase step). -/
def findWordIdx (ws : List String) (proc : Finset ℕ) (w : String) : Option ℕ :=
  (List.range ws.length).find?
    (fun k => decide (k ∉ proc) && (clean_word (ws.getD k "") == clean_word w))

/-- The indices located for the words of a semantic phrase; none as soon as
    any word has no unprocessed match (the phrase is then skipped).  The
    searches all run against the same processed set, as in the source, where
    flags are only set after the whole phrase is matched. -/
def phraseIndices (ws : List String) (proc : Finset ℕ) : List String → Option (List ℕ)
  | [] => some []
  | w :: rest =>
    match findWordIdx ws proc w with
    | none => none
    | some k => (phraseIndices ws proc rest).map (k :: ·)

/-- One semantic-phrase step: skip single-word phrases and phrases with a
    missing word; otherwise consult the oracle and, above the length-dependent
    threshold, emit one token event covering the located indices. -/
def phase2Step (ws : List String) (chunk : Chunker) (st : PTState) (phrase : String) : PTState :=
  if (splitWS phrase).length ≤ 1 then st
  else
    match phraseIndices ws st.processed (splitWS phrase) with
    | none => st
    | some idxs =>
      let r := chunk phrase
      let th : ℚ := if 3 ≤ (splitWS phrase).length then 5/100 else 1/10
      match r.1 with
      | some t =>
        if t ≠ "" ∧ th ≤ r.2 then
          ⟨st.processed ∪ idxs.toFinset, st.events ++ [⟨t, idxs.toFinset, true⟩]⟩
        else st
      | none => st

/-- The semantic-phrase pass (step 2 of process_text). -/
def phase2 (ws : List String) (chunk : Chunker) (phrases : List String) (st : PTState) : PTState :=
  phrases.foldl (phase2Step ws chunk) st

/-- The absolute indices of the non-stop words of the window from i
    (inclusive) to e (exclusive). -/
def meaningfulOf (ws : List String) (i e : ℕ) : List ℕ :=
  ((List.range (e - i)).filter (fun j => !is_stop_word (ws.getD (i + j) ""))).map (i + ·)

/-- Join with single spaces (the phrase string handed to the oracle). -/
def joinSpace : List String → String
  | [] => ""
  | [w] => w
  | w :: rest => w ++ " " ++ joinSpace rest

/-- A candidate window match of the greedy pass. -/
structure WinCand where
  tokOut : String
  score : ℚ
  word_count : ℕ
  meaningful : List ℕ
deriving DecidableEq

/-- Build the candidate for the window ending at e: skipped when any window
    index is already processed or fewer than two meaningful words remain;
    otherwise the oracle is consulted on the cleaned meaningful words and the
    length-dependent threshold applied. -/
def mkWinCand (ws : List String) (proc : Finset ℕ) (chunk : Chunker) (i e : ℕ) :
    Option WinCand :=
  if (List.range (e - i)).any (fun j => decide ((i + j) ∈ proc)) then none
  else
    let mi := meaningfulOf ws i e
    if mi.length < 1 then none
    else if mi.length < 2 then none
    else
      let ph := joinSpace (mi.map (fun k => clean_word (ws.getD k "")))
      let r := chunk ph
      let th : ℚ := if 3 ≤ mi.length then 5/100 else if mi.length = 2 then 1/10 else 15/100
      match r.1 with
      | some t => if t ≠ "" ∧ th ≤ r.2 then some ⟨t, r.2, e - i, mi⟩ else none
      | none => none

/-- The best-window fold state: current best candidate with its score and
    meaningful count (zero-initialised, as in the source). -/
def bestWinFold (cands : List WinCand) (init : Option WinCand × ℚ × ℕ) :
    Option WinCand × ℚ × ℕ :=
  cands.foldl
    (fun best c =>
      if c.score > best.2.1 ∨ (c.score = best.2.1 ∧ c.meaningful.length > best.2.2) then
        (some c, c.score, c.meaningful.length)
      else best)
    init

/-- The greedy window search from position i: windows of one to six words
    (bounded by the text end), best score first, longer window on ties. -/
def bestWin (ws : List String) (proc : Finset ℕ) (chunk : Chunker) (i : ℕ) : Option WinCand :=
  let la := min 6 (ws.length - i)
  (bestWinFold
    (((List.range la).map (fun j => i + 1 + j)).filterMap (mkWinCand ws proc chunk i))
    (none, 0, 0)).1

/-- One window consumption: one token event covering the meaningful indices,
    one verbatim event per stop word of the window, every window index
    flagged. -/
def consumeWin (ws : List String) (st : PTState) (i : ℕ) (bm : WinCand) : PTState :=
  let stopEvs := (((List.range bm.word_count).filter
      (fun j => is_stop_word (ws.getD (i + j) ""))).map
    (fun j => (⟨ws.getD (i + j) "", {i + j}, false⟩ : Ev)))
  ⟨st.processed ∪ ((List.range bm.word_count).map (i + ·)).toFinset,
   st.events ++ [⟨bm.tokOut, bm.meaningful.toFinset, true⟩] ++ stopEvs⟩

/-- The greedy pass (step 3 of process_text), fuelled by the word count: the
    source loop advances its index by at least one per round, so the fuel
    never runs out before the index passes the end. -/
def phase3 (ws : List String) (chunk : Chunker) : ℕ → ℕ → PTState → PTState
  | 0, _, st => st
  | fuel + 1, i, st =>
    if ws.length ≤ i then st
    else if i ∈ st.processed then phase3 ws chunk fuel (i + 1) st
    else
      let w := ws.getD i ""
      match bestWin ws st.processed chunk i with
      | some bm => phase3 ws chunk fuel (i + bm.word_count) (consumeWin ws st i bm)
      | none =>
        if is_stop_word w then
          phase3 ws chunk fuel (i + 1) ⟨insert i st.processed, st.events ++ [⟨w, {i}, false⟩]⟩
        else
          let r := chunk (clean_word w)
          match r.1 with
          | some t =>
            if t ≠ "" ∧ 5/100 ≤ r.2 then
              phase3 ws chunk fuel (i + 1)
                ⟨insert i st.processed, st.events ++ [⟨t, {i}, true⟩]⟩
            else
              phase3 ws chunk fuel (i + 1)
                ⟨insert i st.processed, st.events ++ [⟨w, {i}, false⟩]⟩
          | none =>
            phase3 ws chunk fuel (i + 1)
              ⟨insert i st.processed, st.events ++ [⟨w, {i}, false⟩]⟩

/-- One step of the final safety sweep: an index still unprocessed is emitted
    exactly once, as a token above the 0.25 floor for non-stop words, verbatim
    otherwise. -/
def sweepStep (ws : List String) (chunk : Chunker) (st : PTState) (idx : ℕ) : PTState :=
  if idx ∈ st.processed then st
  else
    let w := ws.getD idx ""
    if !is_stop_word w then
      let r := chunk (clean_word w)
      match r.1 with
      | some t =>
        if t ≠ "" ∧ 25/100 ≤ r.2 then
          ⟨insert idx st.processed, st.events ++ [⟨t, {idx}, true⟩]⟩
        else ⟨insert idx st.processed, st.events ++ [⟨w, {idx}, false⟩]⟩
      | none => ⟨insert idx st.processed, st.events ++ [⟨w, {idx}, false⟩]⟩
    else ⟨insert idx st.processed, st.events ++ [⟨w, {idx}, false⟩]⟩

/-- The final safety sweep over every input index. -/
def sweep (ws : List String) (chunk : Chunker) (st : PTState) : PTState :=
  (List.range ws.length).foldl (sweepStep ws chunk) st

/-- process_text: split on whitespace, use the chunker-produced semantic
    phrases only beyond ten words, then the three passes in order. -/
def process_text (chunk : Chunker) (phrases : List String) (text : String) : PTState :=
  let ws := splitWS text
  let sp := if 10 < ws.length then phrases else []
  sweep ws chunk (phase3 ws chunk ws.length 0 (phase2 ws chunk sp ⟨∅, []⟩))

/-! ## RecursiveEngine construction (load_dataset) -/

/-- One parsed CSV row (the DictReader record projected to the columns the
    loader reads; a missing column reads as the empty string). -/
structure CsvRow where
  sanskrit : String
  devnari : String
  english : String
  semantic_frame : String
  contextual_triggers : String
  conceptual_anchors : String
  ambiguity_resolvers : String
  usage_frequency_index : String
deriving DecidableEq

/-- The state load_dataset builds: the dictionary, the letter map, the space
    symbol, and whether the exception handler ran (it only prints). -/
structure LoadResult where
  word_data : WordData
  letter_to_devnari : List (String × String)
  space_symbol : String
  printed_error : Bool
deriving DecidableEq

/-- Python dict assignment: overwrite in place when the key exists, append
    otherwise. -/
def upsert (l : List (String × String)) (k v : String) : List (String × String) :=
  if l.any (fun kv => kv.1 == k) then l.map (fun kv => if kv.1 == k then (k, v) else kv)
  else l ++ [(k, v)]

/-- Dict assignment for the word table. -/
def upsertE (l : WordData) (k : String) (v : Entry) : WordData :=
  if l.any (fun kv => kv.1 == k) then l.map (fun kv => if kv.1 == k then (k, v) else kv)
  else l ++ [(k, v)]

/-- Membership test for the letter map. -/
def hasKey (l : List (String × String)) (k : String) : Bool := l.any (fun kv => kv.1 == k)

/-- One row of the load loop: store the stripped fields under the stripped
    sanskrit key, maintain the single-letter map with case pairing, and pick
    up the space-bar symbol. -/
def loadRow (acc : LoadResult) (row : CsvRow) : LoadResult :=
  let sanskrit := trimWS row.sanskrit
  let devnari := trimWS row.devnari
  let wd1 :=
    if sanskrit ≠ "" then
      upsertE acc.word_data sanskrit
        ⟨trimWS row.english, trimWS row.semantic_frame, trimWS row.contextual_triggers,
         trimWS row.conceptual_anchors, trimWS row.ambiguity_resolvers,
         trimWS row.usage_frequency_index, "", devnari⟩
    else acc.word_data
  let lm1 :=
    if sanskrit.length = 1 ∧ (sanskrit.toList.all Char.isAlpha ∨ sanskrit.toList.all Char.isDigit)
        ∧ devnari ≠ "" then
      let m := upsert acc.letter_to_devnari sanskrit devnari
      if sanskrit.toList.all (fun c => c.isUpper) ∧ !hasKey m (lowerStr sanskrit) then
        upsert m (lowerStr sanskrit) devnari
      else if sanskrit.toList.all (fun c => c.isLower)
          ∧ !hasKey m (String.mk (sanskrit.toList.map Char.toUpper)) then
        upsert m (String.mk (sanskrit.toList.map Char.toUpper)) devnari
      else m
    else acc.letter_to_devnari
  let sp1 := if lowerStr sanskrit = "space-bar" ∧ devnari ≠ "" then devnari else acc.space_symbol
  ⟨wd1, lm1, sp1, acc.printed_error⟩

/-- load_dataset in the exception-handling shape of the source: reading the
    file is the only operation of the try block that can raise, modelled by a
    missing row list; the handler catches everything, prints, and leaves the
    engine with an empty dictionary and the fallback space symbol.  A present
    (possibly empty) row list is processed without any possible failure. -/
def load_dataset (src : Option (List CsvRow)) : LoadResult :=
  match src with
  | none => ⟨[], [], "ं", true⟩
  | some rows => rows.foldl loadRow ⟨[], [], "·", false⟩

/-! ## Claims about the decision engine (C3, C4, C10) -/

/-- C3 counterexample: the claim quantifies over every previous score, but for
    a negative previous score the relative-drop formula exceeds 0.40 while the
    code (which guards its division with previous_score greater than zero)
    detects no degradation and CONTINUEs: at score 0.85, previous score -1,
    iteration 1, the drop (previous - score)/previous = 1.85 exceeds 0.40 yet
    the decision is CONTINUE, not REJECT. -/
theorem C3_counterexample :
    (4/10 : ℚ) < ((-1 : ℚ) - 85/100) / (-1)
    ∧ make_decision (85/100) (some (-1)) 1 ≠ Decision.REJECT
    ∧ make_decision (85/100) (some (-1)) 1 = Decision.CONTINUE := by
  refine ⟨by norm_num, ?_, ?_⟩ <;> with_unfolding_all decide

/-- C3 (amended): for every score and iteration, if a positive previous score
    exists and (previous - score)/previous exceeds 0.40, make_decision returns
    REJECT regardless of every other rule; in particular with previous score
    0.90 and score 0.40 it returns REJECT at every iteration. -/
theorem C3_degradation_rejects :
    (∀ (s p : ℚ) (it : ℕ), 0 < p → 4/10 < (p - s) / p →
        make_decision s (some p) it = Decision.REJECT)
    ∧ (∀ it : ℕ, make_decision (4/10) (some (9/10)) it = Decision.REJECT) := by
  have h1 : ∀ (s p : ℚ) (it : ℕ), 0 < p → 4/10 < (p - s) / p →
      make_decision s (some p) it = Decision.REJECT := by
    intro s p it hp h
    simp only [make_decision, context_degradation_detected, hp, if_pos, if_true]
    simp [hp, h]
  exact ⟨h1, fun it => h1 (4/10) (9/10) it (by norm_num) (by norm_num)⟩

/-- C3 witness: the amended rule applied at score 0.20, previous 0.90,
    iteration 2. -/
theorem C3_degradation_rejects_witness :
    (0 : ℚ) < 9/10 ∧ (4/10 : ℚ) < ((9/10 : ℚ) - 2/10) / (9/10)
    ∧ make_decision (2/10) (some (9/10)) 2 = Decision.REJECT :=
  ⟨by norm_num, by norm_num,
    C3_degradation_rejects.1 (2/10) (9/10) 2 (by norm_num) (by norm_num)⟩

/-- C4 counterexample: the claim quantifies over every previous score, but at
    score 0.90, previous score -1, iteration 1, the no-collapse condition
    |score - previous|/previous = -1.9 is (vacuously) at most 0.40 while the
    code treats a non-positive previous score as full context loss and
    CONTINUEs instead of ACCEPTing. -/
theorem C4_counterexample :
    (8/10 : ℚ) ≤ 9/10
    ∧ |(9/10 : ℚ) - (-1)| / (-1) ≤ 4/10
    ∧ make_decision (9/10) (some (-1)) 1 ≠ Decision.ACCEPT
    ∧ make_decision (9/10) (some (-1)) 1 = Decision.CONTINUE := by
  refine ⟨by norm_num, by rw [abs_of_nonneg] <;> norm_num, ?_, ?_⟩ <;>
    with_unfolding_all decide

/-- C4 (amended): for every score at least 0.80 and every iteration,
    make_decision returns ACCEPT whenever there is no previous score, or the
    previous score is positive and |score - previous|/previous is at most
    0.40 (no score collapse relative to the previous iteration). -/
theorem C4_monotonic_accept :
    ∀ (s : ℚ) (p? : Option ℚ) (it : ℕ), 8/10 ≤ s →
      (p? = none ∨ ∃ p : ℚ, p? = some p ∧ 0 < p ∧ |s - p| / p ≤ 4/10) →
      make_decision s p? it = Decision.ACCEPT := by
  intro s p? it hs h
  rcases h with h | ⟨p, rfl, hp, hcol⟩
  · subst h
    simp [make_decision, context_degradation_detected, context_maintained, hs]
  · have h1 : (p - s) / p ≤ |s - p| / p := by
      apply (div_le_div_iff_of_pos_right hp).mpr
      rw [abs_sub_comm]
      exact le_abs_self _
    have hdeg : ¬ (4/10 < (p - s) / p) := not_lt.mpr (h1.trans hcol)
    simp [make_decision, context_degradation_detected, context_maintained, hp, hdeg, hs, hcol]

/-- C4 witness: the amended rule applied at score 0.90, previous 1,
    iteration 3. -/
theorem C4_monotonic_accept_witness :
    (8/10 : ℚ) ≤ 9/10 ∧ (0 : ℚ) < 1 ∧ |(9/10 : ℚ) - 1| / 1 ≤ 4/10
    ∧ make_decision (9/10) (some 1) 3 = Decision.ACCEPT :=
  ⟨by norm_num, by norm_num, by rw [abs_of_nonpos] <;> norm_num,
    C4_monotonic_accept (9/10) (some 1) 3 (by norm_num)
      (Or.inr ⟨1, rfl, by norm_num, by rw [abs_of_nonpos] <;> norm_num⟩)⟩

/-- C10 (confirmed): with a previous score equal to zero (as opposed to
    absent), degradation is never detected and context is never maintained;
    consequently make_decision returns CONTINUE (not ACCEPT) for every score
    at least 0.80 at iterations one through four, and REJECT for every score
    below 0.60 at every iteration. -/
theorem C10_zero_previous :
    (∀ s : ℚ, context_degradation_detected s (some 0) = false)
    ∧ (∀ s : ℚ, context_maintained s (some 0) = false)
    ∧ (∀ (s : ℚ) (it : ℕ), 8/10 ≤ s → 1 ≤ it → it ≤ 4 →
        make_decision s (some 0) it = Decision.CONTINUE)
    ∧ (∀ (s : ℚ) (it : ℕ), s < 6/10 → make_decision s (some 0) it = Decision.REJECT) := by
  have hdeg : ∀ s : ℚ, context_degradation_detected s (some 0) = false := by
    intro s; simp [context_degradation_detected]; norm_num
  have hmain : ∀ s : ℚ, context_maintained s (some 0) = false := by
    intro s; simp [context_maintained]; norm_num
  refine ⟨hdeg, hmain, ?_, ?_⟩
  · intro s it hs h1 h4
    have h5 : it < 5 := by omega
    simp [make_decision, hdeg, hmain, hs, h5]
  · intro s it hlow
    have h8 : ¬ (8/10 ≤ s) := by intro h; nlinarith
    have h6 : ¬ (6/10 ≤ s) := by intro h; nlinarith
    simp [make_decision, hdeg, hmain, h8, h6]

/-- C10 witness: the zero-previous behaviour at score 0.90, iteration 2 and at
    score 0.50, iteration 5. -/
theorem C10_zero_previous_witness :
    ((8/10 : ℚ) ≤ 9/10 ∧ 1 ≤ 2 ∧ 2 ≤ 4
      ∧ make_decision (9/10) (some 0) 2 = Decision.CONTINUE)
    ∧ ((1/2 : ℚ) < 6/10 ∧ make_decision (1/2) (some 0) 5 = Decision.REJECT) :=
  ⟨⟨by norm_num, by norm_num, by norm_num,
      C10_zero_previous.2.2.1 (9/10) 2 (by norm_num) (by norm_num) (by norm_num)⟩,
    ⟨by norm_num, C10_zero_previous.2.2.2 (1/2) 5 (by norm_num)⟩⟩

/-! ## Claim about the expander (C8) -/

/-- A cache is valid when every stored set is the pure expansion of its key;
    the empty cache is valid and every expand_word call preserves validity, so
    every reachable cache is valid. -/
def ValidCache (st : ExpCache) : Prop := ∀ kv ∈ st.cache, kv.2 = expandKey kv.1

/-- Accumulators only grow along a union fold. -/
theorem subset_foldl_union {α β : Type} [DecidableEq α] (f : β → Finset α) :
    ∀ (l : List β) (acc : Finset α), acc ⊆ l.foldl (fun a x => a ∪ f x) acc
  | [], _ => subset_rfl
  | x :: xs, acc => subset_trans Finset.subset_union_left (subset_foldl_union f xs (acc ∪ f x))

/-- The pure expansion of a key contains the key. -/
theorem mem_expandKey (k : String) : k ∈ expandKey k :=
  subset_foldl_union (fun key => insert key (directConcepts key)) (reverse_index_get k)
    (insert k (directConcepts k)) (Finset.mem_insert_self k _)

/-- Under a valid cache, expand_word returns the pure expansion of the
    lower-cased trimmed word, whether it hits or misses. -/
theorem expand_word_eq (st : ExpCache) (w : String) (h : ValidCache st) :
    (expand_word st w).1 = expandKey (trimWS (lowerStr w)) := by
  unfold expand_word
  cases hf : st.cache.find? (fun kv => kv.1 == trimWS (lowerStr w)) with
  | none => simp [hf]
  | some kv =>
    have hm : kv ∈ st.cache := List.mem_of_find?_eq_some hf
    have hp := List.find?_some hf
    have hk : kv.1 = trimWS (lowerStr w) := by simpa using hp
    simp [hf, h kv hm, hk]

/-- expand_word preserves cache validity. -/
theorem expand_word_valid (st : ExpCache) (w : String) (h : ValidCache st) :
    ValidCache (expand_word st w).2 := by
  unfold expand_word
  cases hf : st.cache.find? (fun kv => kv.1 == trimWS (lowerStr w)) with
  | none =>
    simp only [hf]
    intro kv hm
    rcases List.mem_append.mp hm with hl | hr
    · exact h kv hl
    · simp at hr
      subst hr
      rfl
  | some kv => simpa [hf] using h

/-- C8 counterexample: the returned set contains the lower-cased trimmed word,
    not the word itself; expanding "Divide" from the empty cache yields a set
    that contains "divide" but not "Divide". -/
theorem C8_counterexample :
    "Divide" ∉ (expand_word ⟨[]⟩ "Divide").1
    ∧ "divide" ∈ (expand_word ⟨[]⟩ "Divide").1 := by
  constructor <;> with_unfolding_all decide

/-- C8 (amended): starting from any valid cache (and every reachable cache is
    valid, the empty cache trivially so), expand_word is deterministic and
    idempotent: its result is the pure expansion of the lower-cased trimmed
    word, independent of the cache contents, so two calls with the same word
    return set-equal results and the memoized result is never stale; the
    result always contains the lower-cased trimmed word (the word itself
    whenever it is already lower-case and trimmed); and the updated cache is
    again valid. -/
theorem C8_expand_word_deterministic :
    ∀ (st : ExpCache) (w : String), ValidCache st →
      (expand_word st w).1 = expandWordP w
      ∧ (expand_word st w).1 = (expand_word (expand_word st w).2 w).1
      ∧ trimWS (lowerStr w) ∈ (expand_word st w).1
      ∧ ValidCache (expand_word st w).2 := by
  intro st w h
  have h2 := expand_word_valid st w h
  refine ⟨?_, ?_, ?_, h2⟩
  · rw [expand_word_eq st w h]; rfl
  · rw [expand_word_eq st w h, expand_word_eq _ w h2]
  · rw [expand_word_eq st w h]; exact mem_expandKey _

/-- C8 witness: the deterministic behaviour at the word "divide" from the
    empty cache. -/
theorem C8_expand_word_deterministic_witness :
    ValidCache ⟨[]⟩ ∧ trimWS (lowerStr "divide") ∈ (expand_word ⟨[]⟩ "divide").1 :=
  ⟨fun kv hm => absurd hm (List.not_mem_nil kv),
    (C8_expand_word_deterministic ⟨[]⟩ "divide"
      (fun kv hm => absurd hm (List.not_mem_nil kv))).2.2.1⟩

/-! ## Claim about calculate_score (C1) -/

/-- The weight a usage_frequency_index segment parses to, if any (shared by
    the frequency factor and the frequency boosts). -/
def segWeight (part : String) : Option ℚ :=
  let p2 := trimWS part
  if containsSub ":" p2 then parsePyFloat (rsplitColon p2).2 else none

/-- Every parsable weight of the entry's usage_frequency_index is
    nonnegative (vacuously true for an absent entry or a blank field). -/
def NonnegFreqWeights (e : Option Entry) : Prop :=
  ∀ part ∈ splitOnChar '|' (trimWS (fieldOf e Entry.usage_frequency_index)),
    0 ≤ (segWeight part).getD 0

/-- Every field read by the scoring pipeline is blank (also holds for a token
    absent from the dictionary, whose every field reads blank). -/
def BlankFields (e : Option Entry) : Prop :=
  fieldOf e Entry.english = "" ∧ fieldOf e Entry.semantic_frame = ""
    ∧ fieldOf e Entry.contextual_triggers = "" ∧ fieldOf e Entry.conceptual_anchors = ""
    ∧ fieldOf e Entry.ambiguity_resolvers = "" ∧ fieldOf e Entry.usage_frequency_index = ""

theorem overlapRatio_nonneg (ec t : Finset String) : 0 ≤ overlapRatio ec t := by
  unfold overlapRatio
  split
  · exact le_min (div_nonneg (by positivity) (by positivity)) zero_le_one
  · exact le_refl 0

theorem overlapRatio_le_one (ec t : Finset String) : overlapRatio ec t ≤ 1 := by
  unfold overlapRatio
  split
  · exact min_le_right _ _
  · exact zero_le_one

theorem compare_frames_bounds (wd : WordData) (chunk tok : String) :
    0 ≤ compare_frames wd chunk tok ∧ compare_frames wd chunk tok ≤ 1 := by
  unfold compare_frames
  cases wdGet wd tok with
  | none => norm_num
  | some e =>
    dsimp only
    split
    · norm_num
    · split
      · norm_num
      · exact ⟨overlapRatio_nonneg _ _, overlapRatio_le_one _ _⟩

theorem compare_triggers_bounds (wd : WordData) (chunk tok : String) :
    0 ≤ compare_triggers wd chunk tok ∧ compare_triggers wd chunk tok ≤ 1 := by
  unfold compare_triggers
  cases wdGet wd tok with
  | none => norm_num
  | some e =>
    dsimp only
    split
    · norm_num
    · split
      · norm_num
      · exact ⟨overlapRatio_nonneg _ _, overlapRatio_le_one _ _⟩

theorem compare_anchors_bounds (wd : WordData) (chunk tok : String) :
    0 ≤ compare_anchors wd chunk tok ∧ compare_anchors wd chunk tok ≤ 1 := by
  unfold compare_anchors
  cases wdGet wd tok with
  | none => norm_num
  | some e =>
    dsimp only
    split
    · norm_num
    · split
      · norm_num
      · exact ⟨overlapRatio_nonneg _ _, overlapRatio_le_one _ _⟩

theorem compare_english_definition_bounds (wd : WordData) (chunk tok : String) :
    0 ≤ compare_english_definition wd chunk tok
      ∧ compare_english_definition wd chunk tok ≤ 1 := by
  unfold compare_english_definition
  cases wdGet wd tok with
  | none => norm_num
  | some e =>
    dsimp only
    split
    · norm_num
    · split
      · norm_num
      · exact ⟨overlapRatio_nonneg _ _, overlapRatio_le_one _ _⟩

theorem freqContribution_nonneg (primary : String) (ec : Finset String) (part : String)
    (h : 0 ≤ (segWeight part).getD 0) : 0 ≤ freqContribution primary ec part := by
  unfold freqContribution
  unfold segWeight at h
  dsimp only at h ⊢
  split
  · rename_i hc
    rw [if_pos hc] at h
    cases hw : parsePyFloat (rsplitColon (trimWS part)).2 with
    | none => norm_num
    | some w =>
      rw [hw] at h
      simp only [Option.getD_some] at h
      dsimp only
      split
      · nlinarith
      · split
        · exact h
        · exact le_refl 0
  · exact le_refl 0

theorem get_frequency_score_bounds (wd : WordData) (chunk tok : String)
    (h : NonnegFreqWeights (wdGet wd tok)) :
    0 ≤ get_frequency_score wd chunk tok ∧ get_frequency_score wd chunk tok ≤ 1 := by
  unfold get_frequency_score
  cases hw : wdGet wd tok with
  | none => norm_num
  | some e =>
    dsimp only
    split
    · norm_num
    · cases (detect_context chunk).primary_context with
      | none => norm_num
      | some primary =>
        dsimp only
        constructor
        · refine le_min ?_ zero_le_one
          apply List.sum_nonneg
          intro x hx
          rcases List.mem_map.mp hx with ⟨part, hpm, rfl⟩
          apply freqContribution_nonneg
          have := h part
          rw [hw] at this
          exact this hpm
        · exact min_le_right _ _

/-- A gated tie-break boost with a nonnegative threshold and coefficient is
    nonnegative. -/
theorem gate_nonneg (x th k : ℚ) (hth : 0 ≤ th) (hk : 0 ≤ k) :
    0 ≤ if th < x then x * k else 0 := by
  split
  · rename_i hx
    exact mul_nonneg (le_of_lt (lt_of_le_of_lt hth hx)) hk
  · exact le_refl 0

/-- C1 counterexample: the claim quantifies over every entry, but an entry
    whose usage_frequency_index parses to a negative weight drives the total
    below zero: for the dictionary mapping token T to an entry whose only
    non-blank field is usage_frequency_index "action:-5", scoring the text
    "divide" (whose detected primary context is action) yields -9/8. -/
theorem C1_counterexample :
    calculate_score [("T", ⟨"", "", "", "", "", "action:-5", "", ""⟩)] "divide" "T" [] ""
      = -9/8
    ∧ calculate_score [("T", ⟨"", "", "", "", "", "action:-5", "", ""⟩)] "divide" "T" [] ""
      < 0 := by
  have h : calculate_score [("T", ⟨"", "", "", "", "", "action:-5", "", ""⟩)] "divide" "T" [] ""
      = -9/8 := by
    with_unfolding_all decide
  exact ⟨h, by rw [h]; norm_num⟩

theorem trimWS_empty : trimWS "" = "" := by decide

theorem compare_frames_blank (wd : WordData) (chunk tok : String)
    (h : fieldOf (wdGet wd tok) Entry.semantic_frame = "") :
    compare_frames wd chunk tok = 0 := by
  unfold compare_frames
  cases hw : wdGet wd tok with
  | none => rfl
  | some e =>
    rw [hw] at h
    simp only [fieldOf] at h
    simp [h, trimWS_empty]

theorem compare_triggers_blank (wd : WordData) (chunk tok : String)
    (h : fieldOf (wdGet wd tok) Entry.contextual_triggers = "") :
    compare_triggers wd chunk tok = 0 := by
  unfold compare_triggers
  cases hw : wdGet wd tok with
  | none => rfl
  | some e =>
    rw [hw] at h
    simp only [fieldOf] at h
    simp [h, trimWS_empty]

theorem compare_anchors_blank (wd : WordData) (chunk tok : String)
    (h : fieldOf (wdGet wd tok) Entry.conceptual_anchors = "") :
    compare_anchors wd chunk tok = 0 := by
  unfold compare_anchors
  cases hw : wdGet wd tok with
  | none => rfl
  | some e =>
    rw [hw] at h
    simp only [fieldOf] at h
    simp [h, trimWS_empty]

theorem get_frequency_score_blank (wd : WordData) (chunk tok : String)
    (h : fieldOf (wdGet wd tok) Entry.usage_frequency_index = "") :
    get_frequency_score wd chunk tok = 0 := by
  unfold get_frequency_score
  cases hw : wdGet wd tok with
  | none => rfl
  | some e =>
    rw [hw] at h
    simp only [fieldOf] at h
    simp [h, trimWS_empty]

theorem compare_english_definition_blank (wd : WordData) (chunk tok : String)
    (h : fieldOf (wdGet wd tok) Entry.english = "") :
    compare_english_definition wd chunk tok = 0 := by
  unfold compare_english_definition
  cases hw : wdGet wd tok with
  | none => rfl
  | some e =>
    rw [hw] at h
    simp only [fieldOf] at h
    simp [h, trimWS_empty]

theorem prioritize_by_semantic_frame_blank (wd : WordData) (chunk tok : String)
    (h : fieldOf (wdGet wd tok) Entry.semantic_frame = "") :
    prioritize_by_semantic_frame wd chunk tok = 0 := by
  unfold prioritize_by_semantic_frame
  simp [h, trimWS_empty]

theorem use_ambiguity_resolvers_blank (wd : WordData) (chunk tok : String)
    (h : fieldOf (wdGet wd tok) Entry.ambiguity_resolvers = "") :
    use_ambiguity_resolvers wd chunk tok = 0 := by
  unfold use_ambiguity_resolvers
  simp [h, trimWS_empty]

theorem apply_frequency_boost_blank (wd : WordData) (chunk tok : String)
    (h : fieldOf (wdGet wd tok) Entry.usage_frequency_index = "") :
    apply_frequency_boost wd chunk tok = 0 := by
  unfold apply_frequency_boost
  simp [h, trimWS_empty]

theorem get_context_priority_blank (chunk : String) (e : Option Entry)
    (hfi : fieldOf e Entry.usage_frequency_index = "")
    (htr : fieldOf e Entry.contextual_triggers = "") :
    get_context_priority chunk e = 1/2 ∨ get_context_priority chunk e = 3/10 := by
  unfold get_context_priority
  dsimp only
  cases hpc : (detect_context chunk).primary_context with
  | none =>
    left
    simp [hpc]
  | some p =>
    right
    simp [hpc, hfi, htr, trimWS_empty]

/-- The expected-token boost head term is nonnegative. -/
theorem neighbor_gate_nonneg (x : ℚ) :
    0 ≤ if 1 ≤ x then (1:ℚ)/10 else if 8/10 ≤ x then 5/100 else 0 := by
  split
  · norm_num
  · split <;> norm_num

/-- C1 (amended): whenever every parsable weight of the entry's
    usage_frequency_index is nonnegative (in particular for tokens absent from
    the dictionary), calculate_score lies in the interval from zero to one for
    every input text and guidance parameters; and for an entry whose every
    field is blank (or a token absent from the dictionary) the default-call
    score is exactly zero. -/
theorem C1_score_in_unit_interval :
    (∀ (wd : WordData) (chunk tok : String) (expT : List String) (expC : String),
        NonnegFreqWeights (wdGet wd tok) →
          0 ≤ calculate_score wd chunk tok expT expC
          ∧ calculate_score wd chunk tok expT expC ≤ 1)
    ∧ (∀ (wd : WordData) (chunk tok : String),
        BlankFields (wdGet wd tok) → calculate_score wd chunk tok [] "" = 0) := by
  constructor
  · intro wd chunk tok expT expC h
    obtain ⟨hf0, hf1⟩ := compare_frames_bounds wd chunk tok
    obtain ⟨ht0, ht1⟩ := compare_triggers_bounds wd chunk tok
    obtain ⟨ha0, ha1⟩ := compare_anchors_bounds wd chunk tok
    obtain ⟨hq0, hq1⟩ := get_frequency_score_bounds wd chunk tok h
    obtain ⟨he0, he1⟩ := compare_english_definition_bounds wd chunk tok
    simp only [calculate_score]
    constructor
    · refine le_min (add_nonneg ?_ (le_min (add_nonneg ?_ ?_) (by norm_num))) zero_le_one
      · have c1 : (0:ℚ) ≤ 4/10 := by norm_num
        have c2 : (0:ℚ) ≤ 25/100 := by norm_num
        have c3 : (0:ℚ) ≤ 2/10 := by norm_num
        have c4 : (0:ℚ) ≤ 15/100 := by norm_num
        exact add_nonneg (add_nonneg (add_nonneg (add_nonneg
          (mul_nonneg hf0 c1) (mul_nonneg ht0 c2)) (mul_nonneg ha0 c3))
          (mul_nonneg hq0 c4)) (mul_nonneg he0 c3)
      · refine add_nonneg (add_nonneg (add_nonneg ?_ ?_) ?_) ?_ <;>
          exact gate_nonneg _ _ _ (by norm_num) (by norm_num)
      · split
        · exact add_nonneg (add_nonneg (neighbor_gate_nonneg _)
            (gate_nonneg _ _ _ (by norm_num) (by norm_num)))
            (gate_nonneg _ _ _ (by norm_num) (by norm_num))
        · exact le_refl 0
    · exact min_le_right _ _
  · intro wd chunk tok hb
    obtain ⟨hbe, hbf, hbt, hba, hbr, hbq⟩ := hb
    have h1 := compare_frames_blank wd chunk tok hbf
    have h2 := compare_triggers_blank wd chunk tok hbt
    have h3 := compare_anchors_blank wd chunk tok hba
    have h4 := get_frequency_score_blank wd chunk tok hbq
    have h5 := compare_english_definition_blank wd chunk tok hbe
    have h6 := prioritize_by_semantic_frame_blank wd chunk tok hbf
    have h7 := use_ambiguity_resolvers_blank wd chunk tok hbr
    have h8 := apply_frequency_boost_blank wd chunk tok hbq
    simp only [calculate_score, h1, h2, h3, h4, h5, h6, h7, h8]
    rcases get_context_priority_blank chunk (wdGet wd tok) hbq hbt with hcp | hcp <;>
      · rw [hcp]
        norm_num

/-- C1 witness: the bound applied to the worked-example entry (frequency
    weight 0.50, nonnegative) on the text "divide the cake into portions". -/
theorem C1_score_in_unit_interval_witness :
    NonnegFreqWeights (wdGet
        [("T1", ⟨"divide a cake", "divide|portion", "cake|share", "", "", "food:0.50", "", ""⟩)]
        "T1")
    ∧ 0 ≤ calculate_score
        [("T1", ⟨"divide a cake", "divide|portion", "cake|share", "", "", "food:0.50", "", ""⟩)]
        "divide the cake into portions" "T1" [] ""
    ∧ calculate_score
        [("T1", ⟨"divide a cake", "divide|portion", "cake|share", "", "", "food:0.50", "", ""⟩)]
        "divide the cake into portions" "T1" [] "" ≤ 1 := by
  have hn : NonnegFreqWeights (wdGet
      [("T1", ⟨"divide a cake", "divide|portion", "cake|share", "", "", "food:0.50", "", ""⟩)]
      "T1") := by
    unfold NonnegFreqWeights
    with_unfolding_all decide
  obtain ⟨h0, h1⟩ := C1_score_in_unit_interval.1
    [("T1", ⟨"divide a cake", "divide|portion", "cake|share", "", "", "food:0.50", "", ""⟩)]
    "divide the cake into portions" "T1" [] "" hn
  exact ⟨hn, h0, h1⟩

/-! ## Claim about iteration 5 (C7) -/

/-- An entry whose every field is blank (shared by several concrete checks). -/
def blankEntry : Entry := ⟨"", "", "", "", "", "", "", ""⟩

/-- C7 counterexample: the source's iteration5_final_resolution performs no
    ambiguity-resolver search, no semantic-neighbor fallback and no forced
    acceptance; on the non-empty dictionary mapping T to a blank entry and
    the text "divide", every candidate scores zero, find_best_matches returns
    nothing, and iteration 5 returns no token (with REJECT) even though the
    dictionary is non-empty — refuting "iteration 5 always returns some
    token for a non-empty dictionary". -/
theorem C7_counterexample :
    ([("T", blankEntry)] : WordData) ≠ []
    ∧ iteration5_final_resolution [("T", blankEntry)] [] "" "divide" none
      = ⟨5, "divide", none, 0, Decision.REJECT⟩ := by
  constructor
  · intro h
    cases h
  · with_unfolding_all decide

/-- C7 (amended): iteration 5 is a single find_best_matches call with top_n
    five and a 0.30 floor: it returns no token exactly when the call returns
    nothing or its best score is below 0.30 (and then its decision is REJECT
    with score zero); when it returns a token, that token is the best match,
    its score is at least 0.30, and the decision is make_decision at
    iteration five. -/
theorem C7_final_resolution_characterised :
    ∀ (wd : WordData) (expT : List String) (expC : String) (text : String) (prev : Option ℚ),
      ((iteration5_final_resolution wd expT expC text prev).sanskrit = none
        ↔ (find_best_matches wd text 5 expT expC = []
            ∨ ∃ m rest, find_best_matches wd text 5 expT expC = m :: rest ∧ m.2 < 3/10))
      ∧ ((iteration5_final_resolution wd expT expC text prev).sanskrit = none →
          iteration5_final_resolution wd expT expC text prev
            = ⟨5, text, none, 0, Decision.REJECT⟩)
      ∧ (∀ t, (iteration5_final_resolution wd expT expC text prev).sanskrit = some t →
          ∃ m rest, find_best_matches wd text 5 expT expC = m :: rest ∧ m.1 = t ∧ 3/10 ≤ m.2
            ∧ iteration5_final_resolution wd expT expC text prev
              = ⟨5, text, some m.1, m.2, make_decision m.2 prev 5⟩) := by
  intro wd expT expC text prev
  cases hm : find_best_matches wd text 5 expT expC with
  | nil =>
    refine ⟨?_, ?_, ?_⟩
    · simp [iteration5_final_resolution, hm]
    · intro _
      simp [iteration5_final_resolution, hm]
    · intro t ht
      simp [iteration5_final_resolution, hm] at ht
  | cons m rest =>
    by_cases hs : 3/10 ≤ m.2
    · refine ⟨?_, ?_, ?_⟩
      · simp [iteration5_final_resolution, hm, hs]
      · intro h
        simp [iteration5_final_resolution, hm, hs] at h
      · intro t ht
        simp [iteration5_final_resolution, hm, hs] at ht
        exact ⟨m, rest, rfl, ht, hs, by simp [iteration5_final_resolution, hm, hs]⟩
    · refine ⟨?_, ?_, ?_⟩
      · simp [iteration5_final_resolution, hm, hs]
        exact not_le.mp hs
      · intro _
        simp [iteration5_final_resolution, hm, hs]
      · intro t ht
        simp [iteration5_final_resolution, hm, hs] at ht

/-- C7 witness: the characterisation applied to the blank-entry dictionary on
    the text "cake": the match list is empty, hence no token. -/
theorem C7_final_resolution_characterised_witness :
    find_best_matches [("T", blankEntry)] "cake" 5 [] "" = []
    ∧ (iteration5_final_resolution [("T", blankEntry)] [] "" "cake" none).sanskrit = none := by
  have h : find_best_matches [("T", blankEntry)] "cake" 5 [] "" = [] := by
    with_unfolding_all decide
  exact ⟨h,
    (C7_final_resolution_characterised [("T", blankEntry)] [] "" "cake" none).1.mpr (Or.inl h)⟩

/-! ## Claim about the early-exit heuristics of find_best_matches (C6) -/

/-- C6 counterexample: the early exits do change the result.  With the
    two-entry dictionary A (semantic_frame "divide") before B (semantic_frame
    and definition "divide"), text "divide" and top_n one, entry A scores
    0.45, which triggers the enough-high-score cutoff before B (which scores
    0.65) is ever examined, so the guarded scan returns A while exhaustive
    scoring returns B. -/
theorem C6_counterexample :
    (find_best_matches
        [("A", ⟨"", "divide", "", "", "", "", "", ""⟩),
         ("B", ⟨"divide", "divide", "", "", "", "", "", ""⟩)] "divide" 1 [] "").map (·.1)
      = ["A"]
    ∧ (find_best_matches_exhaustive
        [("A", ⟨"", "divide", "", "", "", "", "", ""⟩),
         ("B", ⟨"divide", "divide", "", "", "", "", "", ""⟩)] "divide" 1 [] "").map (·.1)
      = ["B"] := by
  constructor <;> with_unfolding_all decide

/-- A scan started with the mid-sort flag set can only complete with it set. -/
theorem fbmLoop_flag_monotone (wd : WordData) (chunk : String) (topN : ℕ)
    (expT : List String) (expC : String) :
    ∀ (ws : List String) (it hsc : ℕ) (best : ℚ) (ms msF : List (String × ℚ)),
      fbmLoop wd chunk topN expT expC ws it hsc best ms true ≠ ScanOutcome.full msF false := by
  intro ws
  induction ws with
  | nil =>
    intro it hsc best ms msF h
    simp [fbmLoop] at h
  | cons w rest ih =>
    intro it hsc best ms msF h
    rw [fbmLoop] at h
    by_cases c1 : 100 < it + 1 ∧ best < 1/10 ∧ ms.isEmpty = true
    · rw [if_pos c1] at h; simp at h
    rw [if_neg c1] at h
    by_cases c2 : 500 < it + 1
    · rw [if_pos c2] at h; simp at h
    rw [if_neg c2] at h
    by_cases c3 : (ms.any fun m => m.1 == w) = true
    · rw [if_pos c3] at h
      exact ih _ _ _ _ _ h
    rw [if_neg c3] at h
    by_cases c4 : 0 < calculate_score wd chunk w expT expC
    · rw [if_pos c4] at h
      by_cases c5 : 25/100 ≤ calculate_score wd chunk w expT expC
          ∧ topN ≤ (if 25/100 ≤ calculate_score wd chunk w expT expC then hsc + 1 else hsc)
          ∧ topN ≤ (ms ++ [(w, calculate_score wd chunk w expT expC)]).length
      · rw [if_pos c5] at h; simp at h
      rw [if_neg c5] at h
      by_cases c6 : topN * 3 ≤ (ms ++ [(w, calculate_score wd chunk w expT expC)]).length
      · rw [if_pos c6] at h; simp at h
      rw [if_neg c6] at h
      by_cases c7 : topN ≤ (ms ++ [(w, calculate_score wd chunk w expT expC)]).length
      · rw [if_pos c7] at h
        by_cases c8 : 15/100 ≤ (((sortDesc
            (ms ++ [(w, calculate_score wd chunk w expT expC)])).head?.map (·.2)).getD 0)
        · rw [if_pos c8] at h; simp at h
        rw [if_neg c8] at h
        by_cases c9 : 3 ≤ (sortDesc (ms ++ [(w, calculate_score wd chunk w expT expC)])).length
            ∧ 4/10 ≤ max best (calculate_score wd chunk w expT expC)
        · rw [if_pos c9] at h; simp at h
        rw [if_neg c9] at h
        exact ih _ _ _ _ _ h
      rw [if_neg c7] at h
      by_cases c10 : 3 ≤ (ms ++ [(w, calculate_score wd chunk w expT expC)]).length
          ∧ 4/10 ≤ max best (calculate_score wd chunk w expT expC)
      · rw [if_pos c10] at h; simp at h
      rw [if_neg c10] at h
      exact ih _ _ _ _ _ h
    · rw [if_neg c4] at h
      exact ih _ _ _ _ _ h

/-- When the guarded scan completes without any early return, break or
    mid-scan sort, it accumulates exactly what the exhaustive scan does. -/
theorem fbmLoop_full_eq (wd : WordData) (chunk : String) (topN : ℕ)
    (expT : List String) (expC : String) :
    ∀ (ws : List String) (it hsc : ℕ) (best : ℚ) (ms msF : List (String × ℚ)),
      fbmLoop wd chunk topN expT expC ws it hsc best ms false = ScanOutcome.full msF false →
      fbmLoopEx wd chunk expT expC ws ms = msF := by
  intro ws
  induction ws with
  | nil =>
    intro it hsc best ms msF h
    simp [fbmLoop] at h
    simp [fbmLoopEx, h]
  | cons w rest ih =>
    intro it hsc best ms msF h
    rw [fbmLoop] at h
    rw [fbmLoopEx]
    by_cases c1 : 100 < it + 1 ∧ best < 1/10 ∧ ms.isEmpty = true
    · rw [if_pos c1] at h; simp at h
    rw [if_neg c1] at h
    by_cases c2 : 500 < it + 1
    · rw [if_pos c2] at h; simp at h
    rw [if_neg c2] at h
    by_cases c3 : (ms.any fun m => m.1 == w) = true
    · rw [if_pos c3] at h
      rw [if_pos c3]
      exact ih _ _ _ _ _ h
    rw [if_neg c3] at h
    rw [if_neg c3]
    by_cases c4 : 0 < calculate_score wd chunk w expT expC
    · rw [if_pos c4] at h
      rw [if_pos c4]
      by_cases c5 : 25/100 ≤ calculate_score wd chunk w expT expC
          ∧ topN ≤ (if 25/100 ≤ calculate_score wd chunk w expT expC then hsc + 1 else hsc)
          ∧ topN ≤ (ms ++ [(w, calculate_score wd chunk w expT expC)]).length
      · rw [if_pos c5] at h; simp at h
      rw [if_neg c5] at h
      by_cases c6 : topN * 3 ≤ (ms ++ [(w, calculate_score wd chunk w expT expC)]).length
      · rw [if_pos c6] at h; simp at h
      rw [if_neg c6] at h
      by_cases c7 : topN ≤ (ms ++ [(w, calculate_score wd chunk w expT expC)]).length
      · rw [if_pos c7] at h
        by_cases c8 : 15/100 ≤ (((sortDesc
            (ms ++ [(w, calculate_score wd chunk w expT expC)])).head?.map (·.2)).getD 0)
        · rw [if_pos c8] at h; simp at h
        rw [if_neg c8] at h
        by_cases c9 : 3 ≤ (sortDesc (ms ++ [(w, calculate_score wd chunk w expT expC)])).length
            ∧ 4/10 ≤ max best (calculate_score wd chunk w expT expC)
        · rw [if_pos c9] at h; simp at h
        rw [if_neg c9] at h
        exact absurd h (fbmLoop_flag_monotone wd chunk topN expT expC _ _ _ _ _ _)
      rw [if_neg c7] at h
      by_cases c10 : 3 ≤ (ms ++ [(w, calculate_score wd chunk w expT expC)]).length
          ∧ 4/10 ≤ max best (calculate_score wd chunk w expT expC)
      · rw [if_pos c10] at h; simp at h
      rw [if_neg c10] at h
      exact ih _ _ _ _ _ h
    · rw [if_neg c4] at h
      rw [if_neg c4]
      exact ih _ _ _ _ _ h

/-- C6 (amended): the early-exit heuristics are not behaviour-preserving in
    general (see the counterexample), but whenever none of them fires — no
    early return, no iteration-cap or no-match break, and no mid-scan sort,
    i.e. the scan completes in the clean full state — find_best_matches
    returns exactly the exhaustive computation (score every entry, sort
    descending, context-filter, truncate to top_n). -/
theorem C6_exhaustive_when_no_exit :
    ∀ (wd : WordData) (chunk : String) (topN : ℕ) (expT : List String) (expC : String)
      (msF : List (String × ℚ)),
      fbmLoop wd chunk topN expT expC (wd.map (·.1)) 0 0 0 (fbmPre wd chunk expT expC) false
        = ScanOutcome.full msF false →
      find_best_matches wd chunk topN expT expC
        = find_best_matches_exhaustive wd chunk topN expT expC := by
  intro wd chunk topN expT expC msF h
  unfold find_best_matches find_best_matches_exhaustive
  rw [h, fbmLoop_full_eq wd chunk topN expT expC _ _ _ _ _ _ h]

/-- C6 witness: the equivalence applied to the blank-entry dictionary on the
    text "share", where nothing scores and the scan completes cleanly. -/
theorem C6_exhaustive_when_no_exit_witness :
    fbmLoop [("T", blankEntry)] "share" 1 [] ""
        ([("T", blankEntry)].map (·.1)) 0 0 0 (fbmPre [("T", blankEntry)] "share" [] "") false
      = ScanOutcome.full [] false
    ∧ find_best_matches [("T", blankEntry)] "share" 1 [] ""
      = find_best_matches_exhaustive [("T", blankEntry)] "share" 1 [] "" := by
  have h : fbmLoop [("T", blankEntry)] "share" 1 [] ""
      ([("T", blankEntry)].map (·.1)) 0 0 0 (fbmPre [("T", blankEntry)] "share" [] "") false
      = ScanOutcome.full [] false := by
    with_unfolding_all decide
  exact ⟨h, C6_exhaustive_when_no_exit [("T", blankEntry)] "share" 1 [] "" [] h⟩

/-! ## Claim about the cascade orchestration (C5) -/

/-- The previous-score discipline actually implemented by process_chunk: after
    the first iteration (handed no previous score), every later iteration is
    handed the running maximum of the scores of the iterations run so far. -/
def runningOk : ℚ → PCTrace → Prop
  | _, [] => True
  | m, (p, r) :: rest => p = some m ∧ runningOk (if r.score > m then r.score else m) rest

/-- The whole-trace form of the running-maximum discipline. -/
def traceRunningOk : PCTrace → Prop
  | [] => True
  | (_, r) :: rest => runningOk r.score rest

/-- Python max over a non-empty results list by score (first maximum). -/
def listBest : List IterRes → IterRes
  | [] => ⟨0, "", none, 0, Decision.REJECT⟩
  | r :: rest => pcBest r rest

/-- The accept-return discipline actually implemented: an ACCEPT from any
    iteration but the last entry of the trace is impossible (such an ACCEPT
    truncates the cascade and is returned); when the last trace entry accepts,
    either it was an early iteration's ACCEPT and is itself the returned
    result, or it is the iteration-5 fall-through, which does not return
    early — the returned result is then still the trace maximum and need not
    be the accepting entry. -/
def acceptReturnOk (best : IterRes) (results : List IterRes) : PCTrace → Prop
  | [] => True
  | [(_, r)] => r.decision = Decision.ACCEPT → (best = r ∨ best = listBest results)
  | (_, r) :: rest => r.decision ≠ Decision.ACCEPT ∧ acceptReturnOk best results rest

/-- C5 counterexample: the decision of an iteration is not computed against
    the previous iteration's score.  With iteration 1 matching at 0.70 and
    continuing, and iteration 2 finding no phrase match (score 0, CONTINUE, as
    the source returns in that case), iteration 3 is handed 0.70 — the running
    maximum — although the previous iteration's score was 0. -/
theorem C5_counterexample :
    (((process_chunk
        (fun _ => ⟨1, "c", some "t", 7/10, Decision.CONTINUE⟩)
        (fun _ => ⟨2, "c", none, 0, Decision.CONTINUE⟩)
        (fun _ => ⟨3, "c", none, 0, Decision.CONTINUE⟩)
        (fun _ => ⟨4, "c", none, 0, Decision.CONTINUE⟩)
        (fun _ => ⟨5, "c", none, 0, Decision.REJECT⟩)).2.get? 2).map (·.1))
      = some (some (7/10))
    ∧ (((process_chunk
        (fun _ => ⟨1, "c", some "t", 7/10, Decision.CONTINUE⟩)
        (fun _ => ⟨2, "c", none, 0, Decision.CONTINUE⟩)
        (fun _ => ⟨3, "c", none, 0, Decision.CONTINUE⟩)
        (fun _ => ⟨4, "c", none, 0, Decision.CONTINUE⟩)
        (fun _ => ⟨5, "c", none, 0, Decision.REJECT⟩)).2.get? 1).map (·.2.score))
      = some 0
    ∧ (7/10 : ℚ) ≠ 0 := by
  refine ⟨?_, ?_, by norm_num⟩ <;> with_unfolding_all decide

/-- C5 (amended): in process_chunk, the first iteration is handed no previous
    score and each later iteration's decision is computed against the running
    maximum of the earlier iterations' scores (for iteration 2 this equals
    iteration 1's score, but it is not in general the immediately preceding
    iteration's score, nor the original input score); the cascade returns
    immediately on an ACCEPT from iterations one to four (so no non-final
    trace entry ever accepts), while an iteration-5 ACCEPT does not return
    early — the fall-through then still picks the first maximum-scoring
    result; when no iteration accepts, the first maximum-scoring iteration
    result is returned, with the full ordered iteration trace available
    alongside. -/
theorem C5_cascade_behaviour :
    ∀ (i1 i2 i3 i4 i5 : Option ℚ → IterRes),
      ((process_chunk i1 i2 i3 i4 i5).2.head?.map (·.1)) = some none
      ∧ traceRunningOk (process_chunk i1 i2 i3 i4 i5).2
      ∧ acceptReturnOk (process_chunk i1 i2 i3 i4 i5).1
          ((process_chunk i1 i2 i3 i4 i5).2.map (·.2)) (process_chunk i1 i2 i3 i4 i5).2
      ∧ ((∀ pr ∈ (process_chunk i1 i2 i3 i4 i5).2, pr.2.decision ≠ Decision.ACCEPT) →
          (process_chunk i1 i2 i3 i4 i5).1
            = listBest ((process_chunk i1 i2 i3 i4 i5).2.map (·.2))) := by
  intro i1 i2 i3 i4 i5
  simp only [process_chunk]
  generalize i1 none = r1
  cases h1 : r1.decision with
  | ACCEPT => simp [h1, traceRunningOk, runningOk, acceptReturnOk, listBest, pcBest]
  | REJECT =>
    simp [h1, traceRunningOk, runningOk, acceptReturnOk, listBest, pcBest]
  | CONTINUE =>
    simp only [h1]
    simp only [reduceCtorEq, if_false, if_true, reduceIte]
    generalize i2 (some r1.score) = r2
    cases h2 : r2.decision with
    | ACCEPT => simp [h1, h2, traceRunningOk, runningOk, acceptReturnOk, listBest, pcBest]
    | REJECT =>
      simp only [h2, reduceCtorEq, if_false, if_true, reduceIte]
      generalize hp2 : (if r1.score < r2.score then r2.score else r1.score) = p2
      generalize i4 (some p2) = r4
      cases h4 : r4.decision with
      | ACCEPT =>
        simp [h1, h2, h4, hp2, traceRunningOk, runningOk, acceptReturnOk, listBest, pcBest]
      | CONTINUE =>
        simp only [h4, reduceCtorEq, if_false, if_true, reduceIte]
        generalize hp3 : (if p2 < r4.score then r4.score else p2) = p3
        generalize i5 (some p3) = r5
        simp [h1, h2, h4, hp2, hp3, traceRunningOk, runningOk, acceptReturnOk, listBest,
          pcBest]
      | REJECT =>
        simp only [h4, reduceCtorEq, if_false, if_true, reduceIte]
        generalize hp3 : (if p2 < r4.score then r4.score else p2) = p3
        generalize i5 (some p3) = r5
        simp [h1, h2, h4, hp2, hp3, traceRunningOk, runningOk, acceptReturnOk, listBest,
          pcBest]
    | CONTINUE =>
      simp only [h2, reduceCtorEq, if_false, if_true, reduceIte]
      generalize hp2 : (if r1.score < r2.score then r2.score else r1.score) = p2
      generalize i3 (some p2) = r3
      cases h3 : r3.decision with
      | ACCEPT =>
        simp [h1, h2, h3, hp2, traceRunningOk, runningOk, acceptReturnOk, listBest, pcBest]
      | REJECT =>
        simp only [h3, reduceCtorEq, if_false, if_true, reduceIte]
        generalize hp3 : (if p2 < r3.score then r3.score else p2) = p3
        generalize i5 (some p3) = r5
        simp [h1, h2, h3, hp2, hp3, traceRunningOk, runningOk, acceptReturnOk, listBest,
          pcBest]
      | CONTINUE =>
        simp only [h3, reduceCtorEq, if_false, if_true, reduceIte]
        generalize hp3 : (if p2 < r3.score then r3.score else p2) = p3
        generalize i4 (some p3) = r4
        cases h4 : r4.decision with
        | ACCEPT =>
          simp [h1, h2, h3, h4, hp2, hp3, traceRunningOk, runningOk, acceptReturnOk, listBest,
            pcBest]
        | CONTINUE =>
          simp only [h4, reduceCtorEq, if_false, if_true, reduceIte]
          generalize hp4 : (if p3 < r4.score then r4.score else p3) = p4
          generalize i5 (some p4) = r5
          simp [h1, h2, h3, h4, hp2, hp3, hp4, traceRunningOk, runningOk, acceptReturnOk,
            listBest, pcBest]
        | REJECT =>
          simp only [h4, reduceCtorEq, if_false, if_true, reduceIte]
          generalize hp4 : (if p3 < r4.score then r4.score else p3) = p4
          generalize i5 (some p4) = r5
          simp [h1, h2, h3, h4, hp2, hp3, hp4, traceRunningOk, runningOk, acceptReturnOk,
            listBest, pcBest]

/-- C5 witness: the cascade behaviour at concrete all-continue oracles whose
    trace contains no ACCEPT, so the returned result is the trace maximum. -/
theorem C5_cascade_behaviour_witness :
    (∀ pr ∈ (process_chunk
        (fun _ => ⟨1, "w", none, 1/2, Decision.CONTINUE⟩)
        (fun _ => ⟨2, "w", none, 0, Decision.CONTINUE⟩)
        (fun _ => ⟨3, "w", none, 0, Decision.CONTINUE⟩)
        (fun _ => ⟨4, "w", none, 0, Decision.CONTINUE⟩)
        (fun _ => ⟨5, "w", none, 0, Decision.REJECT⟩)).2,
      pr.2.decision ≠ Decision.ACCEPT)
    ∧ (process_chunk
        (fun _ => ⟨1, "w", none, 1/2, Decision.CONTINUE⟩)
        (fun _ => ⟨2, "w", none, 0, Decision.CONTINUE⟩)
        (fun _ => ⟨3, "w", none, 0, Decision.CONTINUE⟩)
        (fun _ => ⟨4, "w", none, 0, Decision.CONTINUE⟩)
        (fun _ => ⟨5, "w", none, 0, Decision.REJECT⟩)).1
      = listBest ((process_chunk
        (fun _ => ⟨1, "w", none, 1/2, Decision.CONTINUE⟩)
        (fun _ => ⟨2, "w", none, 0, Decision.CONTINUE⟩)
        (fun _ => ⟨3, "w", none, 0, Decision.CONTINUE⟩)
        (fun _ => ⟨4, "w", none, 0, Decision.CONTINUE⟩)
        (fun _ => ⟨5, "w", none, 0, Decision.REJECT⟩)).2.map (·.2)) := by
  have hno : ∀ pr ∈ (process_chunk
      (fun _ => ⟨1, "w", none, 1/2, Decision.CONTINUE⟩)
      (fun _ => ⟨2, "w", none, 0, Decision.CONTINUE⟩)
      (fun _ => ⟨3, "w", none, 0, Decision.CONTINUE⟩)
      (fun _ => ⟨4, "w", none, 0, Decision.CONTINUE⟩)
      (fun _ => ⟨5, "w", none, 0, Decision.REJECT⟩)).2,
      pr.2.decision ≠ Decision.ACCEPT := by
    with_unfolding_all decide
  exact ⟨hno, (C5_cascade_behaviour _ _ _ _ _).2.2.2 hno⟩

/-! ## Claim about construction-time error handling (C9) -/

/-- C9 counterexample: an unusable or empty dictionary source is NOT reported
    to the caller as a construction-time failure.  An unreadable source is
    caught inside load_dataset — the handler only prints — and the engine is
    constructed normally with an empty dictionary; an empty (zero-row) source
    constructs an engine with an empty dictionary without even a printed
    message.  In both cases construction completes and returns an engine
    value. -/
theorem C9_counterexample :
    (load_dataset none).word_data = [] ∧ (load_dataset none).printed_error = true
    ∧ (load_dataset (some [])).word_data = []
    ∧ (load_dataset (some [])).printed_error = false :=
  ⟨rfl, rfl, rfl, rfl⟩

/-- Processing a row never sets the printed-error flag. -/
theorem loadRow_printed (acc : LoadResult) (row : CsvRow) :
    (loadRow acc row).printed_error = acc.printed_error := rfl

/-- The printed-error flag of a row fold is that of its start state. -/
theorem foldl_loadRow_printed :
    ∀ (rows : List CsvRow) (acc : LoadResult),
      (rows.foldl loadRow acc).printed_error = acc.printed_error
  | [], _ => rfl
  | row :: rest, acc => by
    rw [List.foldl_cons, foldl_loadRow_printed rest (loadRow acc row), loadRow_printed]

/-- A usage_frequency_index segment with no parsable weight contributes
    nothing to the frequency factor. -/
theorem freqContribution_malformed (primary : String) (concepts : Finset String) (s : String)
    (h : segWeight s = none) : freqContribution primary concepts s = 0 := by
  unfold segWeight at h
  unfold freqContribution
  dsimp only at h ⊢
  split
  · rename_i hc
    rw [if_pos hc] at h
    rw [h]
  · rfl

/-- C9 (amended): construction never fails: the exception handler runs (and
    only prints) exactly when the source is unreadable, and the engine is
    built with an empty dictionary in that case; an empty row list silently
    yields an empty dictionary; and malformed-but-present data degrades to a
    zero contribution — a usage_frequency_index segment whose weight does not
    parse is skipped individually, leaving the factor sum of the remaining
    segments unchanged. -/
theorem C9_construction_never_fails :
    (∀ src : Option (List CsvRow),
        (load_dataset src).printed_error = true ↔ src = none)
    ∧ (∀ (primary : String) (concepts : Finset String) (l1 l2 : List String) (s : String),
        segWeight s = none →
          ((l1 ++ s :: l2).map (freqContribution primary concepts)).sum
            = ((l1 ++ l2).map (freqContribution primary concepts)).sum) := by
  constructor
  · intro src
    cases src with
    | none => simp [load_dataset]
    | some rows =>
      simp only [load_dataset]
      rw [foldl_loadRow_printed]
      simp
  · intro primary concepts l1 l2 s h
    simp [List.map_append, List.sum_append, freqContribution_malformed primary concepts s h]

/-- C9 witness: the amended behaviour at the malformed segment "food:xx"
    inserted after a well-formed segment. -/
theorem C9_construction_never_fails_witness :
    segWeight "food:xx" = none
    ∧ ((["legal:0.5"] ++ "food:xx" :: []).map (freqContribution "legal" ∅)).sum
      = ((["legal:0.5"] ++ []).map (freqContribution "legal" ∅)).sum := by
  have h : segWeight "food:xx" = none := by with_unfolding_all decide
  exact ⟨h, C9_construction_never_fails.2 "legal" ∅ ["legal:0.5"] [] "food:xx" h⟩

/-! ## Claim about process_text word accounting (C2) -/

/-- The set of input-word indices consumed by a list of events. -/
def covUnion (evs : List Ev) : Finset ℕ := evs.foldr (fun e acc => e.covered ∪ acc) ∅

/-- The segmentation invariant: the emitted events consume pairwise disjoint
    index sets whose union is exactly the set of processed indices, all within
    the input range. -/
def PTInv (N : ℕ) (st : PTState) : Prop :=
  st.events.Pairwise (fun a b => Disjoint a.covered b.covered)
  ∧ covUnion st.events = st.processed
  ∧ st.processed ⊆ Finset.range N

theorem covUnion_append (l1 l2 : List Ev) :
    covUnion (l1 ++ l2) = covUnion l1 ∪ covUnion l2 := by
  induction l1 with
  | nil => simp [covUnion]
  | cons e rest ih =>
    simp only [covUnion, List.foldr_cons, List.cons_append] at ih ⊢
    rw [ih, Finset.union_assoc]

theorem covered_subset_covUnion {e : Ev} {evs : List Ev} (h : e ∈ evs) :
    e.covered ⊆ covUnion evs := by
  induction evs with
  | nil => cases h
  | cons f rest ih =>
    rcases List.mem_cons.mp h with rfl | hm
    · exact Finset.subset_union_left
    · exact subset_trans (ih hm) Finset.subset_union_right

/-- Extending the state by events covering a fresh index set preserves the
    invariant. -/
theorem PTInv_push {N : ℕ} {st : PTState} {evs : List Ev} {S : Finset ℕ}
    (hI : PTInv N st)
    (hpw : evs.Pairwise (fun a b => Disjoint a.covered b.covered))
    (hcov : covUnion evs = S)
    (hdisj : Disjoint S st.processed)
    (hsub : S ⊆ Finset.range N) :
    PTInv N ⟨st.processed ∪ S, st.events ++ evs⟩ := by
  obtain ⟨h1, h2, h3⟩ := hI
  refine ⟨?_, ?_, ?_⟩
  · rw [List.pairwise_append]
    refine ⟨h1, hpw, ?_⟩
    intro a ha b hb
    have hac : a.covered ⊆ st.processed := h2 ▸ covered_subset_covUnion ha
    have hbc : b.covered ⊆ S := hcov ▸ covered_subset_covUnion hb
    exact Finset.disjoint_of_subset_left hac
      (Finset.disjoint_of_subset_right hbc hdisj.symm)
  · rw [covUnion_append, h2, hcov]
  · exact Finset.union_subset h3 hsub

/-- Extending the state by one singleton event at a fresh in-range index
    preserves the invariant. -/
theorem PTInv_push1 {N : ℕ} {st : PTState} (part : String) (b : Bool) {k : ℕ}
    (hI : PTInv N st) (hk : k ∉ st.processed) (hkN : k < N) :
    PTInv N ⟨insert k st.processed, st.events ++ [⟨part, {k}, b⟩]⟩ := by
  have h := @PTInv_push N st [⟨part, {k}, b⟩] {k} hI (by simp)
    (by simp [covUnion]) (by simp [hk]) (by simp [Finset.singleton_subset_iff, hkN])
  rwa [Finset.union_comm, ← Finset.insert_eq] at h

theorem findWordIdx_ok {ws : List String} {proc : Finset ℕ} {w : String} {k : ℕ}
    (h : findWordIdx ws proc w = some k) : k < ws.length ∧ k ∉ proc := by
  unfold findWordIdx at h
  have hm := List.mem_of_find?_eq_some h
  have hp := List.find?_some h
  simp only [Bool.and_eq_true, decide_eq_true_eq] at hp
  exact ⟨List.mem_range.mp hm, hp.1⟩

theorem phraseIndices_ok {ws : List String} {proc : Finset ℕ} :
    ∀ {phw : List String} {l : List ℕ}, phraseIndices ws proc phw = some l →
      ∀ k ∈ l, k < ws.length ∧ k ∉ proc := by
  intro phw
  induction phw with
  | nil =>
    intro l h k hk
    simp [phraseIndices] at h
    subst h
    cases hk
  | cons w rest ih =>
    intro l h k hk
    unfold phraseIndices at h
    cases hf : findWordIdx ws proc w with
    | none => rw [hf] at h; cases h
    | some k0 =>
      rw [hf] at h
      cases hr : phraseIndices ws proc rest with
      | none => rw [hr] at h; cases h
      | some l0 =>
        rw [hr] at h
        simp only [Option.map_some] at h
        cases h
        rcases List.mem_cons.mp hk with rfl | hm
        · exact findWordIdx_ok hf
        · exact ih hr k hm

theorem phase2Step_inv {ws : List String} {chunk : Chunker} {N : ℕ} (hN : N = ws.length)
    {st : PTState} (hI : PTInv N st) (phrase : String) :
    PTInv N (phase2Step ws chunk st phrase) := by
  unfold phase2Step
  split
  · exact hI
  · cases hpi : phraseIndices ws st.processed (splitWS phrase) with
    | none => exact hI
    | some idxs =>
      dsimp only
      cases (chunk phrase).1 with
      | none => exact hI
      | some t =>
        dsimp only
        have hpush : PTInv N ⟨st.processed ∪ idxs.toFinset,
            st.events ++ [⟨t, idxs.toFinset, true⟩]⟩ := by
          refine PTInv_push hI (List.pairwise_singleton _ _) (by simp [covUnion]) ?_ ?_
          · rw [Finset.disjoint_left]
            intro a ha
            exact (phraseIndices_ok hpi a (List.mem_toFinset.mp ha)).2
          · intro a ha
            rw [Finset.mem_range, hN]
            exact (phraseIndices_ok hpi a (List.mem_toFinset.mp ha)).1
        split
        · split
          · exact hpush
          · exact hI
        · split
          · exact hpush
          · exact hI

theorem phase2_inv {ws : List String} {chunk : Chunker} {N : ℕ} (hN : N = ws.length)
    (phrases : List String) :
    ∀ {st : PTState}, PTInv N st → PTInv N (phase2 ws chunk phrases st) := by
  induction phrases with
  | nil => intro st hI; exact hI
  | cons p rest ih =>
    intro st hI
    exact ih (phase2Step_inv hN hI p)

theorem mkWinCand_ok {ws : List String} {proc : Finset ℕ} {chunk : Chunker} {i e : ℕ}
    {c : WinCand} (h : mkWinCand ws proc chunk i e = some c) :
    c.word_count = e - i ∧ c.meaningful = meaningfulOf ws i e
      ∧ ∀ j < e - i, (i + j) ∉ proc := by
  unfold mkWinCand at h
  by_cases hp : ((List.range (e - i)).any fun j => decide ((i + j) ∈ proc)) = true
  · rw [if_pos hp] at h; cases h
  rw [if_neg hp] at h
  have hproc : ∀ j < e - i, (i + j) ∉ proc := by
    intro j hj hmem
    exact hp (List.any_eq_true.mpr ⟨j, List.mem_range.mpr hj, by simp [hmem]⟩)
  dsimp only at h
  repeat' split at h
  all_goals cases h
  all_goals exact ⟨rfl, rfl, hproc⟩

theorem bestWinFold_mem :
    ∀ (cands : List WinCand) (init : Option WinCand × ℚ × ℕ) (c : WinCand),
      (bestWinFold cands init).1 = some c → c ∈ cands ∨ init.1 = some c := by
  intro cands
  induction cands with
  | nil => intro init c h; exact Or.inr h
  | cons x rest ih =>
    intro init c h
    simp only [bestWinFold, List.foldl_cons] at h
    rcases ih _ c h with hm | hi
    · exact Or.inl (List.mem_cons_of_mem _ hm)
    · split at hi
      · cases hi
        exact Or.inl (List.mem_cons_self _ _)
      · exact Or.inr hi

theorem bestWin_ok {ws : List String} {proc : Finset ℕ} {chunk : Chunker} {i : ℕ}
    {c : WinCand} (h : bestWin ws proc chunk i = some c) :
    1 ≤ c.word_count ∧ i + c.word_count ≤ ws.length
      ∧ c.meaningful = meaningfulOf ws i (i + c.word_count)
      ∧ ∀ j < c.word_count, (i + j) ∉ proc := by
  unfold bestWin at h
  rcases bestWinFold_mem _ _ _ h with hm | hi
  · rcases List.mem_filterMap.mp hm with ⟨e, he, hc⟩
    obtain ⟨hwc, hmean, hproc⟩ := mkWinCand_ok hc
    rcases List.mem_map.mp he with ⟨j, hj, rfl⟩
    have hjla := List.mem_range.mp hj
    have hla : min 6 (ws.length - i) ≤ ws.length - i := min_le_right _ _
    have h1 : 1 ≤ c.word_count := by omega
    have h2 : i + c.word_count ≤ ws.length := by omega
    have he2 : i + c.word_count = i + 1 + j := by omega
    refine ⟨h1, h2, ?_, ?_⟩
    · rw [he2]; exact hmean
    · intro j2 hj2
      exact hproc j2 (by omega)
  · cases hi

theorem covUnion_singletons (l : List ℕ) (g : ℕ → ℕ) (mk : ℕ → Ev)
    (hmk : ∀ j, (mk j).covered = {g j}) :
    covUnion (l.map mk) = (l.map g).toFinset := by
  induction l with
  | nil => simp [covUnion]
  | cons j rest ih =>
    simp only [List.map_cons, covUnion, List.foldr_cons, List.toFinset_cons] at ih ⊢
    rw [hmk j, ih, Finset.insert_eq]

theorem consumeWin_inv {N : ℕ} {ws : List String} {st : PTState} {i : ℕ}
    {bm : WinCand}
    (hN : N = ws.length) (hI : PTInv N st)
    (_h1 : 1 ≤ bm.word_count) (h2 : i + bm.word_count ≤ ws.length)
    (h3 : bm.meaningful = meaningfulOf ws i (i + bm.word_count))
    (h4 : ∀ j < bm.word_count, (i + j) ∉ st.processed) :
    PTInv N (consumeWin ws st i bm) := by
  unfold consumeWin
  dsimp only
  rw [List.append_assoc, List.singleton_append]
  have hmean2 : bm.meaningful
      = ((List.range bm.word_count).filter
          (fun j => !is_stop_word (ws.getD (i + j) ""))).map (i + ·) := by
    rw [h3]
    unfold meaningfulOf
    rw [Nat.add_sub_cancel_left]
  have hperm : (((List.range bm.word_count).filter
        (fun j => !is_stop_word (ws.getD (i + j) "")))
      ++ ((List.range bm.word_count).filter
        (fun j => is_stop_word (ws.getD (i + j) "")))).Perm
      (List.range bm.word_count) := by
    have := List.filter_append_perm
      (fun j => !is_stop_word (ws.getD (i + j) "")) (List.range bm.word_count)
    simpa using this
  refine PTInv_push hI ?_ ?_ ?_ ?_
  · rw [List.pairwise_cons]
    constructor
    · intro e' he'
      rcases List.mem_map.mp he' with ⟨j, hjm, rfl⟩
      have hjs := List.of_mem_filter hjm
      dsimp only
      rw [Finset.disjoint_singleton_right]
      intro hmem
      rw [hmean2] at hmem
      rcases List.mem_map.mp (List.mem_toFinset.mp hmem) with ⟨j2, hj2, hjeq⟩
      have : j2 = j := by omega
      subst this
      have h5 := List.of_mem_filter hj2
      rw [Bool.not_eq_true'] at h5
      rw [h5] at hjs
      cases hjs
    · rw [List.pairwise_map]
      refine List.Pairwise.imp ?_
        ((List.nodup_range bm.word_count).filter
          (fun j => is_stop_word (ws.getD (i + j) "")))
      intro a b hab
      dsimp only
      rw [Finset.disjoint_singleton_right, Finset.mem_singleton]
      omega
  · rw [covUnion, List.foldr_cons]
    show bm.meaningful.toFinset ∪ covUnion _ = _
    rw [covUnion_singletons _ (fun j => i + j)
      (fun j => (⟨ws.getD (i + j) "", {i + j}, false⟩ : Ev)) (fun j => rfl)]
    rw [hmean2, ← List.toFinset_append, ← List.map_append]
    exact List.toFinset_eq_of_perm _ _ (hperm.map (i + ·))
  · rw [Finset.disjoint_left]
    intro a ha
    rcases List.mem_map.mp (List.mem_toFinset.mp ha) with ⟨j, hj, rfl⟩
    exact h4 j (List.mem_range.mp hj)
  · intro a ha
    rcases List.mem_map.mp (List.mem_toFinset.mp ha) with ⟨j, hj, rfl⟩
    rw [Finset.mem_range, hN]
    have := List.mem_range.mp hj
    omega

theorem phase3_inv {ws : List String} {chunk : Chunker} {N : ℕ} (hN : N = ws.length) :
    ∀ (fuel i : ℕ) {st : PTState}, PTInv N st → PTInv N (phase3 ws chunk fuel i st) := by
  intro fuel
  induction fuel with
  | zero => intro i st hI; exact hI
  | succ f ih =>
    intro i st hI
    rw [phase3]
    by_cases hle : ws.length ≤ i
    · rw [if_pos hle]; exact hI
    rw [if_neg hle]
    by_cases hmem : i ∈ st.processed
    · rw [if_pos hmem]; exact ih _ hI
    rw [if_neg hmem]
    dsimp only
    have hiN : i < N := by omega
    have hpush : ∀ (part : String) (b : Bool),
        PTInv N ⟨insert i st.processed, st.events ++ [⟨part, {i}, b⟩]⟩ :=
      fun part b => PTInv_push1 part b hI hmem hiN
    cases hbw : bestWin ws st.processed chunk i with
    | some bm =>
      obtain ⟨g1, g2, g3, g4⟩ := bestWin_ok hbw
      exact ih _ (consumeWin_inv hN hI g1 g2 g3 g4)
    | none =>
      by_cases hsw : is_stop_word (ws.getD i "") = true
      · rw [if_pos hsw]
        exact ih _ (hpush _ _)
      · rw [if_neg hsw]
        cases hr : (chunk (clean_word (ws.getD i ""))).1 with
        | some t =>
          dsimp only
          by_cases hok : t ≠ "" ∧ 5/100 ≤ (chunk (clean_word (ws.getD i ""))).2
          · rw [if_pos hok]
            exact ih _ (hpush _ _)
          · rw [if_neg hok]
            exact ih _ (hpush _ _)
        | none => exact ih _ (hpush _ _)

theorem sweepStep_processed (ws : List String) (chunk : Chunker) (st : PTState) (idx : ℕ) :
    (sweepStep ws chunk st idx).processed
      = if idx ∈ st.processed then st.processed else insert idx st.processed := by
  unfold sweepStep
  by_cases hmem : idx ∈ st.processed
  · rw [if_pos hmem, if_pos hmem]
  rw [if_neg hmem, if_neg hmem]
  dsimp only
  by_cases hsw : (!is_stop_word (ws.getD idx "")) = true
  · rw [if_pos hsw]
    cases hr : (chunk (clean_word (ws.getD idx ""))).1 with
    | some t =>
      dsimp only
      by_cases hok : t ≠ "" ∧ 25/100 ≤ (chunk (clean_word (ws.getD idx ""))).2
      · rw [if_pos hok]
      · rw [if_neg hok]
    | none => rfl
  · rw [if_neg hsw]

theorem sweepStep_inv {N : ℕ} {ws : List String} {chunk : Chunker} {st : PTState} {idx : ℕ}
    (hN : N = ws.length) (hidx : idx < ws.length) (hI : PTInv N st) :
    PTInv N (sweepStep ws chunk st idx) := by
  unfold sweepStep
  by_cases hmem : idx ∈ st.processed
  · rw [if_pos hmem]; exact hI
  rw [if_neg hmem]
  have hiN : idx < N := by omega
  have hpush : ∀ (part : String) (b : Bool),
      PTInv N ⟨insert idx st.processed, st.events ++ [⟨part, {idx}, b⟩]⟩ :=
    fun part b => PTInv_push1 part b hI hmem hiN
  dsimp only
  by_cases hsw : (!is_stop_word (ws.getD idx "")) = true
  · rw [if_pos hsw]
    cases hr : (chunk (clean_word (ws.getD idx ""))).1 with
    | some t =>
      dsimp only
      by_cases hok : t ≠ "" ∧ 25/100 ≤ (chunk (clean_word (ws.getD idx ""))).2
      · rw [if_pos hok]; exact hpush _ _
      · rw [if_neg hok]; exact hpush _ _
    | none => exact hpush _ _
  · rw [if_neg hsw]; exact hpush _ _

theorem sweepFold_mono {ws : List String} {chunk : Chunker} :
    ∀ (l : List ℕ) (st : PTState),
      st.processed ⊆ (l.foldl (sweepStep ws chunk) st).processed := by
  intro l
  induction l with
  | nil => intro st; exact Finset.Subset.refl _
  | cons x rest ih =>
    intro st
    rw [List.foldl_cons]
    refine Finset.Subset.trans ?_ (ih _)
    rw [sweepStep_processed]
    split
    · exact Finset.Subset.refl _
    · exact Finset.subset_insert _ _

theorem sweepFold_mem {ws : List String} {chunk : Chunker} :
    ∀ (l : List ℕ) (st : PTState) (j : ℕ), j ∈ l →
      j ∈ (l.foldl (sweepStep ws chunk) st).processed := by
  intro l
  induction l with
  | nil => intro st j hj; cases hj
  | cons x rest ih =>
    intro st j hj
    rw [List.foldl_cons]
    rcases List.mem_cons.mp hj with rfl | hj2
    · refine sweepFold_mono rest _ ?_
      rw [sweepStep_processed]
      split
      · assumption
      · exact Finset.mem_insert_self _ _
    · exact ih _ _ hj2

theorem sweepFold_inv {N : ℕ} {ws : List String} {chunk : Chunker} (hN : N = ws.length) :
    ∀ (l : List ℕ), (∀ j ∈ l, j < ws.length) → ∀ {st : PTState}, PTInv N st →
      PTInv N (l.foldl (sweepStep ws chunk) st) := by
  intro l
  induction l with
  | nil => intro _ st hI; exact hI
  | cons x rest ih =>
    intro hl st hI
    rw [List.foldl_cons]
    exact ih (fun j hj => hl j (List.mem_cons_of_mem _ hj))
      (sweepStep_inv hN (hl x (List.mem_cons_self _ _)) hI)

/-- C2: process_text accounts for every whitespace-delimited word of its input
    exactly once. The index sets covered by the emitted parts (semantic-phrase
    tokens, window tokens, single-word tokens and verbatim words) are pairwise
    disjoint, and their union is the full index range of the word list: no word
    is dropped and no word is consumed by two output parts. -/
theorem C2_every_word_exactly_once (chunk : Chunker) (phrases : List String) (text : String) :
    (process_text chunk phrases text).events.Pairwise
        (fun a b => Disjoint a.covered b.covered)
      ∧ covUnion (process_text chunk phrases text).events
          = Finset.range (splitWS text).length := by
  have hfin : PTInv (splitWS text).length (process_text chunk phrases text) := by
    unfold process_text sweep
    dsimp only
    refine sweepFold_inv rfl _ (fun j hj => List.mem_range.mp hj) ?_
    refine phase3_inv rfl _ _ ?_
    exact phase2_inv rfl _ ⟨List.Pairwise.nil, by simp [covUnion], by simp⟩
  have hsup : Finset.range (splitWS text).length
      ⊆ (process_text chunk phrases text).processed := by
    intro j hj
    unfold process_text sweep
    dsimp only
    exact sweepFold_mem _ _ j (List.mem_range.mpr (Finset.mem_range.mp hj))
  obtain ⟨hpw, hcov, hsub⟩ := hfin
  refine ⟨hpw, ?_⟩
  rw [hcov]
  exact Finset.Subset.antisymm hsub hsup

end EST
